import Mathlib

/-!
# Verification of the chunk-cli review-mining pipeline

Shallow embedding, in Lean 4, of the review-prompt-mining core of the
`chunk-cli` repository: JS string helpers, the CSV escaping of
`csv-writer`/`output` (`escapeCSV`), the activity fetcher (`processPR`,
`fetchReviewActivity`), the cross-repository aggregator
(`aggregateActivity`), the PR-ranking aggregation (`aggregatePRRankings`),
the retrying query executor (`executeWithRetry`), the repository
enumerator (`fetchOrgRepos`) and the token-budget controller loop of
`extractCommentsAndBuildPrompt`.

JavaScript `Map` objects are modelled as association lists in insertion
order; JS `Set` objects as `Finset`; JS timestamps (`Date` values obtained
from ISO strings) as integers, which preserves the ordering used by every
comparison in the source; JS numbers that the source only ever uses as
non-negative counters as `Nat`.  Asynchronous effects (network calls,
sleeps, console output, progress callbacks) carry no data relevant to any
property below: network responses are supplied as explicit page lists, and
back-off sleeps are recorded as explicit delay lists where a property
mentions them.
-/

set_option maxHeartbeats 1000000

namespace ChunkSpec

/-! ## JS string primitives -/

/-- `String.prototype.includes` on character lists: does `pat` occur as a
contiguous run inside `s`? -/
def listIncludes (s pat : List Char) : Bool :=
  pat.isPrefixOf s ||
    match s with
    | [] => false
    | _ :: rest => listIncludes rest pat

/-- JS `s.includes(pat)`. -/
def strIncludes (s pat : String) : Bool :=
  listIncludes s.data pat.data

/-- JS `s.toLowerCase()` (ASCII range, which is all the source compares). -/
def jsToLower (s : String) : String :=
  ⟨s.data.map Char.toLower⟩

/-- JS `s.endsWith(suffix)`. -/
def jsEndsWith (s suf : String) : Bool :=
  suf.data.isSuffixOf s.data

/-- JS `s.startsWith(p)`. -/
def jsStartsWith (s p : String) : Bool :=
  p.data.isPrefixOf s.data

/-! ## CSV escaping (`escapeCSV` in the output writer) -/

/-- One pass of `strValue.replace(/"/g, '""')`: every double-quote
character is doubled. -/
def replaceQuotes : List Char → List Char
  | [] => []
  | c :: cs => if c == '"' then '"' :: '"' :: replaceQuotes cs else c :: replaceQuotes cs

/-- `escapeCSV` from the CSV writer: quote the field, doubling internal
quotes, iff it contains a comma, double-quote, newline or carriage
return. -/
def escapeCSV (v : String) : String :=
  if strIncludes v "," || strIncludes v "\"" || strIncludes v "\n" || strIncludes v "\r" then
    ⟨'"' :: (replaceQuotes v.data ++ ['"'])⟩
  else v

/-- Collapse doubled double-quotes (`""` becomes `"`), the inverse pass of
`replaceQuotes`. -/
def collapseQuotes : List Char → List Char
  | [] => []
  | [c] => [c]
  | c₁ :: c₂ :: cs =>
    if c₁ == '"' && c₂ == '"' then '"' :: collapseQuotes cs
    else c₁ :: collapseQuotes (c₂ :: cs)
  termination_by l => l.length

/-- Modelled from the spec: the standard RFC-4180 unquoting rule used to
re-parse a CSV field (the repository writes CSV but never parses it): a
field that starts and ends with a double-quote is stripped of the outer
quotes and internal doubled quotes are collapsed; any other field is
taken verbatim. -/
def unquoteChars (l : List Char) : List Char :=
  match l with
  | [] => l
  | c :: rest =>
    if c = '"' ∧ rest.getLast? = some '"' then collapseQuotes rest.dropLast else l

/-- String-level wrapper of `unquoteChars`. -/
def unquoteCSV (v : String) : String :=
  ⟨unquoteChars v.data⟩

/-- The four characters whose presence makes `escapeCSV` quote a field. -/
def csvNeedsQuote (c : Char) : Bool :=
  c == ',' || c == '"' || c == '\n' || c == '\r'

/-! ## Rate-aware query executor (`executeWithRetry`) -/

/-- A thrown JS value: its `message` and whether it is an `Error` instance
(the source checks `error instanceof Error` before classifying). -/
structure JsError where
  message : String
  isError : Bool
deriving DecidableEq, Repr

/-- `MAX_RETRIES` from the reviewer fetcher. -/
def MAX_RETRIES : Nat := 3

/-- `INITIAL_RETRY_DELAY_MS` from the reviewer fetcher. -/
def INITIAL_RETRY_DELAY_MS : Nat := 2000

/-- `isHtmlErrorResponse`: does the message look like a GitHub 500/503
HTML error page? -/
def isHtmlErrorResponse (message : String) : Bool :=
  strIncludes message "<!DOCTYPE" || strIncludes message "<html" ||
    strIncludes message "Unicorn"

/-- `isRetryableError` (applied to the error message): timeout substrings
or an HTML server-error page. -/
def isRetryableError (message : String) : Bool :=
  strIncludes message "couldn\x27t respond" || strIncludes message "timeout" ||
    strIncludes message "ETIMEDOUT" || isHtmlErrorResponse message

/-- The distinguished error built after retries are exhausted on an HTML
server-error response. -/
def serverErrorAfterRetries : JsError :=
  ⟨"GitHub API returned server error (500/503) after multiple retries. " ++
    "This is usually a temporary issue - please try again in a few minutes.", true⟩

/-- The fallback error for an exhausted loop with no recorded error. -/
def maxRetriesExceededError : JsError :=
  ⟨"Max retries exceeded", true⟩

/-- The code after the `for` loop of `executeWithRetry`: escalate an HTML
server error to the distinguished message, otherwise rethrow the last
recorded error. -/
def ewrAfterLoop (α : Type) (lastError : Option JsError) (delays : List Nat) :
    Except JsError α × List Nat :=
  match lastError with
  | some le =>
    if isHtmlErrorResponse le.message then (.error serverErrorAfterRetries, delays)
    else (.error le, delays)
  | none => (.error maxRetriesExceededError, delays)

/-- The `for` loop of `executeWithRetry`.  `client` maps the attempt index
to that attempt's outcome; the returned list records the back-off delays
(in ms) slept between attempts. -/
def executeWithRetryAux (client : Nat → Except JsError α) (attempt : Nat)
    (lastError : Option JsError) (delays : List Nat) : Except JsError α × List Nat :=
  if h : attempt < MAX_RETRIES then
    match client attempt with
    | .ok v => (.ok v, delays)
    | .error e =>
      if e.isError && isRetryableError e.message then
        executeWithRetryAux client (attempt + 1) (some e)
          (delays ++ [INITIAL_RETRY_DELAY_MS * 2 ^ attempt])
      else (.error e, delays)
  else ewrAfterLoop α lastError delays
  termination_by MAX_RETRIES - attempt
  decreasing_by simp [MAX_RETRIES] at h ⊢; omega

/-- `executeWithRetry` from the reviewer fetcher. -/
def executeWithRetry (client : Nat → Except JsError α) : Except JsError α × List Nat :=
  executeWithRetryAux client 0 none []

/-- A client whose every attempt fails with a bare timeout error. -/
def timeoutClient : Nat → Except JsError Unit :=
  fun _ => .error ⟨"timeout", true⟩

/-- A client whose every attempt fails with an HTML error page. -/
def htmlClient : Nat → Except JsError Unit :=
  fun _ => .error ⟨"<html><body>503</body></html>", true⟩

/-- A client whose first attempt fails with a non-transient error. -/
def authFailClient : Nat → Except JsError Unit :=
  fun _ => .error ⟨"Bad credentials", true⟩

/-! ## Data model of the review fetcher -/

/-- `UserActivity` from the mining types; the six accumulated fields plus
the key.  `reposActiveIn` is a JS `Set` of repository names. -/
structure UserActivity where
  login : String
  totalActivity : Nat
  reviewsGiven : Nat
  approvals : Nat
  changesRequested : Nat
  reviewComments : Nat
  reposActiveIn : Finset String
deriving DecidableEq

/-- `GraphQLReviewState`, the closed union of verdict states. -/
inductive GraphQLReviewState where
  | approved
  | changesRequested
  | commented
  | dismissed
  | pending
deriving Repr, DecidableEq

/-- A review verdict node.  `author` is `None` for a deleted account; a
JS empty-string login is modelled as `some ""` (falsy in the source's
`!review.author?.login` check, hence also skipped). -/
structure GraphQLReviewNode where
  author : Option String
  state : GraphQLReviewState
  createdAt : Int
deriving Repr, DecidableEq

/-- A review-thread line-comment node. -/
structure GraphQLReviewCommentNode where
  author : Option String
  body : String
  diffHunk : String
  createdAt : Int
deriving Repr, DecidableEq

/-- A review thread: its list of comments. -/
structure GraphQLThreadNode where
  comments : List GraphQLReviewCommentNode
deriving Repr, DecidableEq

/-- `GraphQLPRNode`: one pull request as returned by the paginated
query.  `state` (OPEN/CLOSED/MERGED) is carried opaquely. -/
structure GraphQLPRNode where
  number : Nat
  title : String
  url : String
  state : String
  updatedAt : Int
  author : Option String
  reviews : List GraphQLReviewNode
  reviewThreads : List GraphQLThreadNode
deriving Repr, DecidableEq

/-- The embedded pull-request descriptor of a `ReviewCommentDetail`. -/
structure PRDescriptor where
  repo : String
  number : Nat
  title : String
  author : String
  url : String
  state : String
deriving Repr, DecidableEq

/-- `ReviewCommentDetail` from the mining types. -/
structure ReviewCommentDetail where
  reviewer : String
  body : String
  diffHunk : String
  createdAt : Int
  pr : PRDescriptor
deriving Repr, DecidableEq

/-- `BOT_PATTERNS` membership (`isBot`): the fixed regex list, each an
anchored suffix/prefix/whole-string match, the `/i` ones via
lower-casing. -/
def isBot (login : String) : Bool :=
  jsEndsWith login "[bot]" ||
    jsEndsWith (jsToLower login) "-bot" ||
    jsToLower login == "circleci-app" ||
    jsStartsWith (jsToLower login) "wiz-inc-" ||
    jsToLower login == "github-actions" ||
    jsToLower login == "dependabot" ||
    jsToLower login == "renovate" ||
    jsToLower login == "codecov" ||
    jsToLower login == "sonarcloud"

/-- `createEmptyActivity`. -/
def createEmptyActivity (login : String) : UserActivity :=
  ⟨login, 0, 0, 0, 0, 0, ∅⟩

/-- The activity `Map` of the fetcher, as its entry list in insertion
order (JS `Map` preserves insertion order). -/
abbrev ActivityMap := List UserActivity

/-- `getOrCreateActivity` followed by an in-place mutation `f` of the
entry: update the existing entry in place, or append a fresh one. -/
def getOrCreateUpdate (m : ActivityMap) (login : String) (f : UserActivity → UserActivity) :
    ActivityMap :=
  match m with
  | [] => [f (createEmptyActivity login)]
  | a :: rest => if a.login = login then f a :: rest else a :: getOrCreateUpdate rest login f

/-- The self-review guard `prAuthor && login.toLowerCase() === prAuthor`
(where `prAuthor` is already lower-cased; an empty string is falsy). -/
def selfMatch (prAuthor : Option String) (login : String) : Bool :=
  match prAuthor with
  | none => false
  | some pa => pa != "" && jsToLower login == pa

/-- The date guard `if (since) { if (date < since) continue; }`. -/
def sinceExcludes (since : Option Int) (t : Int) : Bool :=
  match since with
  | some s => decide (t < s)
  | none => false

/-- The `switch (review.state)` counter updates. -/
def applyReviewState (st : GraphQLReviewState) (a : UserActivity) : UserActivity :=
  match st with
  | .approved =>
    { a with approvals := a.approvals + 1, reviewsGiven := a.reviewsGiven + 1 }
  | .changesRequested =>
    { a with changesRequested := a.changesRequested + 1, reviewsGiven := a.reviewsGiven + 1 }
  | .commented => { a with reviewsGiven := a.reviewsGiven + 1 }
  | .dismissed => a
  | .pending => a

/-- `activity.reposActiveIn.add(repoName)`. -/
def addRepo (repoName : String) (a : UserActivity) : UserActivity :=
  { a with reposActiveIn := insert repoName a.reposActiveIn }

/-- Does a review verdict pass all the skip guards of `processPR`? -/
def reviewSurvives (prAuthor : Option String) (since : Option Int)
    (r : GraphQLReviewNode) : Bool :=
  match r.author with
  | none => false
  | some lg =>
    lg != "" && !isBot lg && !selfMatch prAuthor lg && !sinceExcludes since r.createdAt

/-- The body of the review loop of `processPR` for a single verdict. -/
def processReview (prAuthor : Option String) (since : Option Int) (repoName : String)
    (m : ActivityMap) (r : GraphQLReviewNode) : ActivityMap :=
  match r.author with
  | none => m
  | some lg =>
    if lg = "" then m
    else if isBot lg then m
    else if selfMatch prAuthor lg then m
    else if sinceExcludes since r.createdAt then m
    else getOrCreateUpdate m lg fun a => applyReviewState r.state (addRepo repoName a)

/-- Does a line comment pass all the skip guards of `processPR`? -/
def commentSurvives (prAuthor : Option String) (since : Option Int)
    (c : GraphQLReviewCommentNode) : Bool :=
  match c.author with
  | none => false
  | some lg =>
    lg != "" && !isBot lg && !selfMatch prAuthor lg && !sinceExcludes since c.createdAt

/-- The `ReviewCommentDetail` pushed for a surviving line comment. -/
def mkDetail (pr : GraphQLPRNode) (repoName lg : String)
    (c : GraphQLReviewCommentNode) : ReviewCommentDetail :=
  { reviewer := lg, body := c.body, diffHunk := c.diffHunk, createdAt := c.createdAt,
    pr := { repo := repoName, number := pr.number, title := pr.title,
            author := pr.author.getD "unknown", url := pr.url, state := pr.state } }

/-- The counter updates for a surviving line comment. -/
def bumpComment (repoName : String) (a : UserActivity) : UserActivity :=
  let a1 := addRepo repoName a
  { a1 with reviewComments := a1.reviewComments + 1, totalActivity := a1.totalActivity + 1 }

/-- The body of the comment loop of `processPR` for a single comment. -/
def processComment (pr : GraphQLPRNode) (prAuthor : Option String) (since : Option Int)
    (repoName : String) (st : ActivityMap × List ReviewCommentDetail)
    (c : GraphQLReviewCommentNode) : ActivityMap × List ReviewCommentDetail :=
  match c.author with
  | none => st
  | some lg =>
    if lg = "" then st
    else if isBot lg then st
    else if selfMatch prAuthor lg then st
    else if sinceExcludes since c.createdAt then st
    else (getOrCreateUpdate st.1 lg (bumpComment repoName),
          st.2 ++ [mkDetail pr repoName lg c])

/-- `processPR`: fold the review loop, then the thread/comment loops,
over the incoming activity map and detail list. -/
def processPR (pr : GraphQLPRNode) (since : Option Int) (repoName : String)
    (st : ActivityMap × List ReviewCommentDetail) :
    ActivityMap × List ReviewCommentDetail :=
  let prAuthor := pr.author.map jsToLower
  let m1 := pr.reviews.foldl (processReview prAuthor since repoName) st.1
  pr.reviewThreads.foldl
    (fun st2 th => th.comments.foldl (processComment pr prAuthor since repoName) st2)
    (m1, st.2)

/-! ## The paginated fetch walk (`fetchReviewActivity`) -/

/-- One page's pull-request data: the nodes and `pageInfo.hasNextPage`.
(`endCursor` and the rate-limit snapshot only drive which page is
requested next and a timing-only wait, so they carry no modelled data.) -/
structure PRPageData where
  prs : List GraphQLPRNode
  hasNextPage : Bool
deriving Repr, DecidableEq

/-- One page response; `repository` is `None` when access is denied, on
which the walk breaks. -/
structure PRPage where
  repository : Option PRPageData
deriving Repr, DecidableEq

/-- The mutable state of `fetchReviewActivity`'s walk, plus a count of
pages fetched. -/
structure FetchState where
  activity : ActivityMap
  details : List ReviewCommentDetail
  prsProcessed : Nat
  pagesFetched : Nat
deriving DecidableEq

/-- JS truthiness of the optional `maxPRs` number (0 is falsy). -/
def optNatTruthy : Option Nat → Bool
  | some m => m != 0
  | none => false

/-- The guard `maxPRs && prsProcessed >= maxPRs`. -/
def shouldStopMax (maxPRs : Option Nat) (processed : Nat) : Bool :=
  match maxPRs with
  | some m => m != 0 && decide (m ≤ processed)
  | none => false

/-- The guard `!maxPRs && since && prUpdatedAt < since`. -/
def shouldStopSince (maxPRs : Option Nat) (since : Option Int) (updatedAt : Int) : Bool :=
  !optNatTruthy maxPRs &&
    (match since with
     | some s => decide (updatedAt < s)
     | none => false)

/-- Process one pull request inside the page loop:
`processPR(pr, maxPRs ? undefined : since, ...)` and count it. -/
def stepPR (since : Option Int) (maxPRs : Option Nat) (repoName : String)
    (st : FetchState) (pr : GraphQLPRNode) : FetchState :=
  let effSince := if optNatTruthy maxPRs then none else since
  let p := processPR pr effSince repoName (st.activity, st.details)
  { st with activity := p.1, details := p.2, prsProcessed := st.prsProcessed + 1 }

/-- The `for (const pr of prData.nodes)` loop; the Boolean is the
`hasNextPage = false; break` short-circuit. -/
def processPageNodes (since : Option Int) (maxPRs : Option Nat) (repoName : String)
    (st : FetchState) (prs : List GraphQLPRNode) : FetchState × Bool :=
  match prs with
  | [] => (st, false)
  | pr :: rest =>
    if shouldStopMax maxPRs st.prsProcessed then (st, true)
    else if shouldStopSince maxPRs since pr.updatedAt then (st, true)
    else processPageNodes since maxPRs repoName (stepPR since maxPRs repoName st pr) rest

/-- The `while (hasNextPage)` pagination loop. -/
def fetchWalk (since : Option Int) (maxPRs : Option Nat) (repoName : String) :
    List PRPage → FetchState → FetchState
  | [], st => st
  | page :: rest, st =>
    let st1 := { st with pagesFetched := st.pagesFetched + 1 }
    match page.repository with
    | none => st1
    | some pd =>
      let r := processPageNodes since maxPRs repoName st1 pd.prs
      if r.2 then r.1
      else if pd.hasNextPage then fetchWalk since maxPRs repoName rest r.1
      else r.1

/-- The all-empty initial fetch state. -/
def initFetchState : FetchState := ⟨[], [], 0, 0⟩

/-- `fetchReviewActivity` for one repository, over the supplied page
responses. -/
def fetchReviewActivity (pages : List PRPage) (since : Option Int) (maxPRs : Option Nat)
    (repoName : String) : FetchState :=
  fetchWalk since maxPRs repoName pages initFetchState

/-! ## Cross-repository aggregation (`aggregateActivity`) -/

/-- The sum-and-union merge of an existing aggregate entry with an
incoming per-repository entry. -/
def addActivity (e a : UserActivity) : UserActivity :=
  { login := e.login,
    totalActivity := e.totalActivity + a.totalActivity,
    reviewsGiven := e.reviewsGiven + a.reviewsGiven,
    approvals := e.approvals + a.approvals,
    changesRequested := e.changesRequested + a.changesRequested,
    reviewComments := e.reviewComments + a.reviewComments,
    reposActiveIn := e.reposActiveIn ∪ a.reposActiveIn }

/-- The field-by-field clone taken when a login is first seen by the
merge (`merged.set(login, { ...cloned fields... })`). -/
def cloneActivity (a : UserActivity) : UserActivity :=
  { login := a.login, totalActivity := a.totalActivity, reviewsGiven := a.reviewsGiven,
    approvals := a.approvals, changesRequested := a.changesRequested,
    reviewComments := a.reviewComments, reposActiveIn := a.reposActiveIn }

/-- One iteration of the merge loop of `aggregateActivity`: merge into an
existing entry with the same login, else append a clone. -/
def insertActivity (m : List UserActivity) (a : UserActivity) : List UserActivity :=
  match m with
  | [] => [cloneActivity a]
  | e :: rest => if e.login = a.login then addActivity e a :: rest else e :: insertActivity rest a

/-- `aggregateActivity`: merge all per-repository maps, then sort
descending by `totalActivity` (JS stable sort with comparator
`b.totalActivity - a.totalActivity`). -/
def aggregateActivity (repoActivities : List (List UserActivity)) : List UserActivity :=
  (repoActivities.flatten.foldl insertActivity []).mergeSort
    fun a b => decide (b.totalActivity ≤ a.totalActivity)

/-- `topN`. -/
def topN (activities : List UserActivity) (n : Nat) : List UserActivity :=
  activities.take n

/-- `aggregateDetails`. -/
def aggregateDetails (allDetails : List (List ReviewCommentDetail)) :
    List ReviewCommentDetail :=
  allDetails.flatten

/-! ## Pull-request rankings (`aggregatePRRankings`) -/

/-- The per-pull-request accumulator record of `aggregatePRRankings`. -/
structure PRGroupAcc where
  repo : String
  number : Nat
  title : String
  author : String
  url : String
  state : String
  comments : Nat
  reviewers : Finset String
deriving DecidableEq

/-- `PRRankingRow` from the mining types. -/
structure PRRankingRow where
  rank : Nat
  repo : String
  pr_number : Nat
  pr_title : String
  pr_author : String
  pr_url : String
  total_comments : Nat
  reviewer_count : Nat
  state : String
deriving Repr, DecidableEq

/-- The map key `` `${repo}/${number}` ``. -/
def prKey (repo : String) (n : Nat) : String :=
  repo ++ "/" ++ toString n

/-- The fresh accumulator created for a key first seen. -/
def newRankingGroup (d : ReviewCommentDetail) : PRGroupAcc :=
  { repo := d.pr.repo, number := d.pr.number, title := d.pr.title,
    author := d.pr.author, url := d.pr.url, state := d.pr.state,
    comments := 1, reviewers := {d.reviewer} }

/-- The in-place update of an existing accumulator. -/
def bumpRankingGroup (g : PRGroupAcc) (d : ReviewCommentDetail) : PRGroupAcc :=
  { g with comments := g.comments + 1, reviewers := insert d.reviewer g.reviewers }

/-- One iteration of the grouping loop of `aggregatePRRankings`; the map
is keyed by `prKey`. -/
def insertRankingDetail (m : List PRGroupAcc) (d : ReviewCommentDetail) : List PRGroupAcc :=
  match m with
  | [] => [newRankingGroup d]
  | g :: rest =>
    if prKey g.repo g.number = prKey d.pr.repo d.pr.number then
      bumpRankingGroup g d :: rest
    else g :: insertRankingDetail rest d

/-- The `.map((pr, index) => ({ rank: index + 1, ... }))` projection. -/
def mkRankingRow (i : Nat) (g : PRGroupAcc) : PRRankingRow :=
  { rank := i + 1, repo := g.repo, pr_number := g.number, pr_title := g.title,
    pr_author := g.author, pr_url := g.url, total_comments := g.comments,
    reviewer_count := g.reviewers.card, state := g.state }

/-- Assign 1-based ranks in list order starting at index `i`. -/
def withRanks (i : Nat) : List PRGroupAcc → List PRRankingRow
  | [] => []
  | g :: gs => mkRankingRow i g :: withRanks (i + 1) gs

/-- `aggregatePRRankings`: group by `prKey`, sort descending by comment
count (stable), and rank. -/
def aggregatePRRankings (details : List ReviewCommentDetail) : List PRRankingRow :=
  withRanks 0
    ((details.foldl insertRankingDetail []).mergeSort
      fun a b => decide (b.comments ≤ a.comments))

/-! ## Repository enumerator (`fetchOrgRepos`) -/

/-- One page of the organization repository listing. -/
structure RepoPage where
  names : List String
  hasNextPage : Bool
deriving Repr, DecidableEq

/-- The pagination loop of `fetchOrgRepos` (the rate-limit wait is
timing-only). -/
def orgRepoWalk : List RepoPage → List String → List String
  | [], acc => acc
  | page :: rest, acc =>
    let acc1 := acc ++ page.names
    if page.hasNextPage then orgRepoWalk rest acc1 else acc1

/-- `fetchOrgRepos`: return a non-empty explicit list verbatim, otherwise
paginate the whole organization listing. -/
def fetchOrgRepos (pages : List RepoPage) (filterRepos : Option (List String)) :
    List String :=
  match filterRepos with
  | some l => if l.length > 0 then l else orgRepoWalk pages []
  | none => orgRepoWalk pages []

/-! ## Reviewer groups and the token-budget controller -/

/-- The pull-request metadata optionally attached to a comment in the
analyze pipeline (`ReviewCommentWithContext.pr`). -/
structure PRMeta where
  number : Nat
  title : String
  author : String
  url : String
  state : String
deriving Repr, DecidableEq

/-- `ReviewCommentWithContext` from the analyze JSON parser; `createdAt`
is the parsed timestamp. -/
structure ReviewCommentWithContext where
  reviewer : String
  body : String
  diffHunk : String
  createdAt : Int
  repo : String
  pr : Option PRMeta
deriving Repr, DecidableEq

/-- `ReviewerGroup` from the analyze JSON parser. -/
structure ReviewerGroup where
  reviewer : String
  comments : List ReviewCommentWithContext
  totalComments : Nat
deriving Repr, DecidableEq

/-- `limitCommentsPerReviewer`: truncate each group to its `maxComments`
most recent comments (stable sort by `createdAt` descending). -/
def limitCommentsPerReviewer (groups : List ReviewerGroup) (maxComments : Nat) :
    List ReviewerGroup :=
  groups.map fun group =>
    if group.comments.length ≤ maxComments then group
    else
      let sorted := group.comments.mergeSort fun a b => decide (b.createdAt ≤ a.createdAt)
      let limited := sorted.take maxComments
      { reviewer := group.reviewer, comments := limited, totalComments := limited.length }

/-- `getMaxCommentsPerReviewer` in `extractCommentsAndBuildPrompt`:
`Math.max` of the groups' comment counts.  (JS `Math.max()` of an empty
argument list is `-Infinity`; the controller is only run with at least
one group, and this model returns 0 there.) -/
def getMaxCommentsPerReviewer (groups : List ReviewerGroup) : Nat :=
  (groups.map (·.totalComments)).foldl Nat.max 0

/-- Outcome of one `analyzeReviews` LLM call, as classified by the
controller: success, a token-limit error (`isTokenLimitError`), or any
other error. -/
inductive AnalyzeOutcome where
  | ok (analysis : String)
  | tokenLimit
  | other
deriving Repr, DecidableEq

/-- The error the controller rethrows. -/
inductive ControllerError where
  | tokenLimit
  | other
deriving Repr, DecidableEq

/-- `minComments` in `extractCommentsAndBuildPrompt`. -/
def minComments : Nat := 1

/-- The `groupsToAnalyze` computation at the top of the controller loop:
re-truncate the groups when the trial limit is below the largest group. -/
def groupsToAnalyze (reviewerGroups : List ReviewerGroup) (currentLimit : Nat) :
    List ReviewerGroup :=
  if currentLimit < getMaxCommentsPerReviewer reviewerGroups then
    limitCommentsPerReviewer reviewerGroups currentLimit
  else reviewerGroups

/-- The `while (true)` controller loop of `extractCommentsAndBuildPrompt`,
from the state `(currentLimit, currentMaxComments)`.  `oracle` is the
`analyzeReviews` call, applied to the re-derived `groupsToAnalyze`; the
second component counts the LLM calls made. -/
def runControllerAux (oracle : List ReviewerGroup → AnalyzeOutcome)
    (reviewerGroups : List ReviewerGroup) (currentLimit currentMaxComments : Nat) :
    Except ControllerError String × Nat :=
  match oracle (groupsToAnalyze reviewerGroups currentLimit) with
  | .ok analysis => (.ok analysis, 1)
  | .other => (.error .other, 1)
  | .tokenLimit =>
    -- newMax := currentLimit; newLimit := (minComments + newMax) / 2
    if h : (minComments + currentLimit) / 2 < minComments
        ∨ (minComments + currentLimit) / 2 = currentLimit then
      (.error .tokenLimit, 1)
    else
      let r := runControllerAux oracle reviewerGroups
        ((minComments + currentLimit) / 2) currentLimit
      (r.1, r.2 + 1)
  termination_by currentLimit
  decreasing_by simp only [minComments] at h ⊢; omega

/-- The whole adaptive stage: optional upfront truncation at
`maxComments`, initial `currentMaxComments`/`currentLimit`, then the loop.
(The JS `maxComments || ...` treats a configured 0 as absent.) -/
def runController (oracle : List ReviewerGroup → AnalyzeOutcome)
    (maxComments0 : Option Nat) (groups0 : List ReviewerGroup) :
    Except ControllerError String × Nat :=
  let reviewerGroups :=
    match maxComments0 with
    | some m => if m ≠ 0 then limitCommentsPerReviewer groups0 m else groups0
    | none => groups0
  let currentMaxComments :=
    match maxComments0 with
    | some m => if m ≠ 0 then m else getMaxCommentsPerReviewer reviewerGroups
    | none => getMaxCommentsPerReviewer reviewerGroups
  runControllerAux oracle reviewerGroups currentMaxComments currentMaxComments

/-- The sequence of `(currentLimit, currentMaxComments)` states the
controller loop visits, for the same transition structure as
`runControllerAux`. -/
def controllerTrace (oracle : List ReviewerGroup → AnalyzeOutcome)
    (reviewerGroups : List ReviewerGroup) (currentLimit currentMaxComments : Nat) :
    List (Nat × Nat) :=
  (currentLimit, currentMaxComments) ::
    (match oracle (groupsToAnalyze reviewerGroups currentLimit) with
     | .ok _ => []
     | .other => []
     | .tokenLimit =>
       if h : (minComments + currentLimit) / 2 < minComments
           ∨ (minComments + currentLimit) / 2 = currentLimit then []
       else controllerTrace oracle reviewerGroups
         ((minComments + currentLimit) / 2) currentLimit)
  termination_by currentLimit
  decreasing_by simp only [minComments] at h ⊢; omega

/-- An analysis oracle that fails with a token-limit error on every
input. -/
def alwaysTokenLimit : List ReviewerGroup → AnalyzeOutcome :=
  fun _ => .tokenLimit

/-! ## Specification helpers (verification layer) -/

/-- Is this login excluded by the claim's filter: a bot, or equal to the
pull-request author case-insensitively? -/
def excludedLogin (pr : GraphQLPRNode) (lg : String) : Bool :=
  isBot lg || selfMatch (pr.author.map jsToLower) lg

/-- Is this review verdict authored by an excluded login? -/
def excludedReview (pr : GraphQLPRNode) (r : GraphQLReviewNode) : Bool :=
  match r.author with
  | none => false
  | some lg => excludedLogin pr lg

/-- Is this line comment authored by an excluded login? -/
def excludedComment (pr : GraphQLPRNode) (c : GraphQLReviewCommentNode) : Bool :=
  match c.author with
  | none => false
  | some lg => excludedLogin pr lg

/-- The pull request with all bot-authored and self-authored verdicts and
comments removed. -/
def stripExcluded (pr : GraphQLPRNode) : GraphQLPRNode :=
  { pr with
    reviews := pr.reviews.filter fun r => !excludedReview pr r,
    reviewThreads := pr.reviewThreads.map fun th =>
      ⟨th.comments.filter fun c => !excludedComment pr c⟩ }

/-- The comment-date filter actually passed to `processPR` by the walk. -/
def effectiveSince (since : Option Int) (maxPRs : Option Nat) : Option Int :=
  if optNatTruthy maxPRs then none else since

/-- The prefix of a page's nodes the page loop processes, starting from
`count` already-processed pull requests, together with the
stop-the-walk flag. -/
def takeProcess (since : Option Int) (maxPRs : Option Nat) (count : Nat) :
    List GraphQLPRNode → List GraphQLPRNode × Bool
  | [] => ([], false)
  | pr :: rest =>
    if shouldStopMax maxPRs count then ([], true)
    else if shouldStopSince maxPRs since pr.updatedAt then ([], true)
    else
      let r := takeProcess since maxPRs (count + 1) rest
      (pr :: r.1, r.2)

/-- The list of pull requests the whole walk processes, starting from
`count` already-processed pull requests. -/
def walkProcessed (since : Option Int) (maxPRs : Option Nat) :
    List PRPage → Nat → List GraphQLPRNode
  | [], _ => []
  | page :: rest, count =>
    match page.repository with
    | none => []
    | some pd =>
      let t := takeProcess since maxPRs count pd.prs
      if t.2 then t.1
      else if pd.hasNextPage then
        t.1 ++ walkProcessed since maxPRs rest (count + t.1.length)
      else t.1

/-- The pull-request nodes a page response carries (none if access was
denied). -/
def pagePRs (p : PRPage) : List GraphQLPRNode :=
  match p.repository with
  | some pd => pd.prs
  | none => []

/-- The number of surviving COMMENTED verdicts by `lg` on this pull
request (under comment-date filter `s`). -/
def commentedInPR (s : Option Int) (lg : String) (pr : GraphQLPRNode) : Nat :=
  (pr.reviews.filter fun r =>
    reviewSurvives (pr.author.map jsToLower) s r && (r.author == some lg)
      && (r.state == GraphQLReviewState.commented)).length


/-- A name for each of the numeric counters of `UserActivity`, to state
per-counter properties uniformly. -/
inductive CounterField where
  | totalActivity
  | reviewsGiven
  | approvals
  | changesRequested
  | reviewComments
deriving Repr, DecidableEq

/-- Project the named counter out of a `UserActivity`. -/
def CounterField.get : CounterField → UserActivity → Nat
  | .totalActivity, a => a.totalActivity
  | .reviewsGiven, a => a.reviewsGiven
  | .approvals, a => a.approvals
  | .changesRequested, a => a.changesRequested
  | .reviewComments, a => a.reviewComments

/-- The sum of `f` over the entries of `m` whose login is `lg`. -/
def sumForLogin (f : UserActivity → Nat) (lg : String) (m : List UserActivity) : Nat :=
  ((m.filter fun e => e.login == lg).map f).sum

/-- The union of the repository sets of the entries of `m` whose login is
`lg`. -/
def reposForLogin (lg : String) (m : List UserActivity) : Finset String :=
  (m.filter fun e => e.login == lg).foldr (fun e acc => e.reposActiveIn ∪ acc) ∅

/-- A concrete contributor entry used to instantiate the aggregation
theorem. -/
def wAlice : UserActivity :=
  ⟨"alice", 3, 2, 1, 1, 3, {"repoA", "repoB"}⟩

/-- The numeric value of a decimal digit character. -/
def digitVal (c : Char) : Nat :=
  c.toNat - 48

/-- The number denoted by a list of decimal digit characters, most
significant first. -/
def valOfDigits (l : List Char) : Nat :=
  l.foldl (fun acc c => acc * 10 + digitVal c) 0

/-- The number of details whose `prKey` is `k`. -/
def countKey (k : String) (details : List ReviewCommentDetail) : Nat :=
  (details.filter fun d => prKey d.pr.repo d.pr.number == k).length

/-- The distinct reviewers among the details whose `prKey` is `k`. -/
def reviewersForKey (k : String) (details : List ReviewCommentDetail) : Finset String :=
  ((details.filter fun d => prKey d.pr.repo d.pr.number == k).map (·.reviewer)).toFinset

/-- The total comment count accumulated for key `k` in a group list. -/
def commentsForKey (k : String) (m : List PRGroupAcc) : Nat :=
  ((m.filter fun g => prKey g.repo g.number == k).map (·.comments)).sum

/-- The reviewer set accumulated for key `k` in a group list. -/
def reviewersAccForKey (k : String) (m : List PRGroupAcc) : Finset String :=
  (m.filter fun g => prKey g.repo g.number == k).foldr (fun g acc => g.reviewers ∪ acc) ∅

/-- How much one surviving verdict of the given state adds to the named
counter. -/
def reviewDelta (p : CounterField) (st : GraphQLReviewState) : Nat :=
  p.get (applyReviewState st (createEmptyActivity ""))

/-- The two claimed cross-counter identities of one activity entry:
`totalActivity` equals `reviewComments`, and `approvals` plus
`changesRequested` never exceed `reviewsGiven`. -/
def EntryBasic (a : UserActivity) : Prop :=
  a.totalActivity = a.reviewComments ∧
    a.approvals + a.changesRequested ≤ a.reviewsGiven

/-- How much one surviving line comment adds to the named counter. -/
def commentDelta (p : CounterField) : Nat :=
  p.get (bumpComment "" (createEmptyActivity ""))

/-- The named counter's total contribution of one pull request's
surviving verdicts for login `lg`. -/
def reviewContrib (p : CounterField) (pr : GraphQLPRNode) (s : Option Int)
    (lg : String) : Nat :=
  ((pr.reviews.filter fun r =>
    reviewSurvives (pr.author.map jsToLower) s r && (r.author == some lg)).map
      (fun r => reviewDelta p r.state)).sum

/-- The number of surviving line comments by `lg` on one pull request. -/
def commentCountInPR (s : Option Int) (lg : String) (pr : GraphQLPRNode) : Nat :=
  (pr.reviewThreads.map (fun th =>
    (th.comments.filter fun c =>
      commentSurvives (pr.author.map jsToLower) s c && (c.author == some lg)).length)).sum

/-- One activity map dominates another: every entry of the first has an
entry of the second with the same login and counters at least as large. -/
def MapLe (m m' : ActivityMap) : Prop :=
  ∀ e ∈ m, ∃ e' ∈ m', e'.login = e.login ∧ ∀ p : CounterField, p.get e ≤ p.get e'

/-- A bare pull request updated at time `t`, used to instantiate the
early-stop theorem. -/
def wPRat (t : Int) : GraphQLPRNode :=
  { number := 1, title := "t", url := "u", state := "OPEN", updatedAt := t,
    author := none, reviews := [], reviewThreads := [] }

/-- A single correctly-descending page `[T+10, T+5, T-1]` (with `T = 0`). -/
def wPages : List PRPage :=
  [⟨some ⟨[wPRat 10, wPRat 5, wPRat (-1)], false⟩⟩]

/-- A concrete pull request with one bot verdict and one bot comment,
used to instantiate the exclusion theorem. -/
def wPR : GraphQLPRNode :=
  { number := 1, title := "t", url := "u", state := "OPEN", updatedAt := 0,
    author := some "alice",
    reviews := [⟨some "renovate", GraphQLReviewState.approved, 0⟩],
    reviewThreads := [⟨[⟨some "renovate", "bump deps", "", 0⟩]⟩] }

/-- A concrete review-comment detail used to instantiate the ranking
theorem. -/
def wDetail : ReviewCommentDetail :=
  ⟨"bob", "nice catch", "@@ -1 +1 @@", 5, ⟨"repoA", 7, "Add parser", "alice", "u", "OPEN"⟩⟩

/-! ## Lemmas -/

theorem listIncludes_singleton (l : List Char) (c : Char) :
    listIncludes l [c] = l.any (· == c) := by
  induction l with
  | nil => simp [listIncludes, List.isPrefixOf]
  | cons x xs ih => simp [listIncludes, List.isPrefixOf, ih, BEq.comm]

theorem any_or_any (l : List Char) (p q : Char → Bool) :
    (l.any p || l.any q) = l.any fun c => p c || q c := by
  induction l with
  | nil => simp
  | cons x xs ih =>
    simp only [List.any_cons, ← ih]
    cases p x <;> cases q x <;> simp

theorem escapeCSV_eq (v : String) :
    escapeCSV v =
      if v.data.any csvNeedsQuote then ⟨'"' :: (replaceQuotes v.data ++ ['"'])⟩ else v := by
  obtain ⟨l⟩ := v
  have hcond : (strIncludes ⟨l⟩ "," || strIncludes ⟨l⟩ "\"" || strIncludes ⟨l⟩ "\n"
      || strIncludes ⟨l⟩ "\r") = l.any csvNeedsQuote := by
    have h1 : strIncludes ⟨l⟩ "," = l.any (· == ',') := listIncludes_singleton l ','
    have h2 : strIncludes ⟨l⟩ "\"" = l.any (· == '"') := listIncludes_singleton l '"'
    have h3 : strIncludes ⟨l⟩ "\n" = l.any (· == '\n') := listIncludes_singleton l '\n'
    have h4 : strIncludes ⟨l⟩ "\r" = l.any (· == '\r') := listIncludes_singleton l '\r'
    rw [h1, h2, h3, h4, any_or_any, any_or_any, any_or_any]
    rfl
  rw [escapeCSV, hcond]

theorem replaceQuotes_eq_nil {l : List Char} (h : replaceQuotes l = []) : l = [] := by
  cases l with
  | nil => rfl
  | cons c cs =>
    exfalso
    by_cases hc : c == '"' <;> simp [replaceQuotes, hc] at h

theorem replaceQuotes_length (l : List Char) : l.length ≤ (replaceQuotes l).length := by
  induction l with
  | nil => simp [replaceQuotes]
  | cons c cs ih =>
    by_cases hc : c == '"' <;> simp [replaceQuotes, hc] <;> omega

theorem collapseQuotes_replaceQuotes (l : List Char) :
    collapseQuotes (replaceQuotes l) = l := by
  induction l with
  | nil => simp [replaceQuotes, collapseQuotes]
  | cons c cs ih =>
    by_cases hc : c == '"'
    · have hc' : c = '"' := by simpa using hc
      subst hc'
      simp only [replaceQuotes, beq_self_eq_true, if_true]
      simp [collapseQuotes, ih]
    · simp only [replaceQuotes, hc, if_false]
      cases h : replaceQuotes cs with
      | nil =>
        have : cs = [] := replaceQuotes_eq_nil h
        subst this
        simp [replaceQuotes, collapseQuotes]
      | cons d ds =>
        rw [h] at ih
        simp [collapseQuotes, hc, ih]

theorem unquoteCSV_escapeCSV (v : String) : unquoteCSV (escapeCSV v) = v := by
  obtain ⟨l⟩ := v
  rw [escapeCSV_eq]
  by_cases h : l.any csvNeedsQuote = true
  · rw [if_pos h]
    show String.mk (unquoteChars ('"' :: (replaceQuotes l ++ ['"']))) = ⟨l⟩
    rw [unquoteChars]
    have hcond : ('"' : Char) = '"' ∧ (replaceQuotes l ++ ['"']).getLast? = some '"' :=
      ⟨rfl, by simp⟩
    rw [if_pos hcond, List.dropLast_concat, collapseQuotes_replaceQuotes]
  · rw [if_neg h]
    show String.mk (unquoteChars l) = ⟨l⟩
    cases hd : l with
    | nil => rfl
    | cons c rest =>
      rw [unquoteChars, if_neg]
      rintro ⟨hc, -⟩
      subst hc
      subst hd
      simp [csvNeedsQuote] at h

theorem ewr_step_ok {α : Type} {client : Nat → Except JsError α} (attempt : Nat)
    {le : Option JsError} {ds : List Nat} {v : α}
    (ha : attempt < MAX_RETRIES) (hc : client attempt = .ok v) :
    executeWithRetryAux client attempt le ds = (.ok v, ds) := by
  conv_lhs => rw [executeWithRetryAux.eq_def]
  rw [dif_pos ha, hc]

theorem ewr_step_raise {α : Type} {client : Nat → Except JsError α} (attempt : Nat)
    {le : Option JsError} {ds : List Nat} {e : JsError}
    (ha : attempt < MAX_RETRIES) (hc : client attempt = .error e)
    (hr : (e.isError && isRetryableError e.message) = false) :
    executeWithRetryAux client attempt le ds = (.error e, ds) := by
  conv_lhs => rw [executeWithRetryAux.eq_def]
  rw [dif_pos ha, hc]
  simp only [hr, Bool.false_eq_true, if_false]

theorem ewr_step_retry {α : Type} {client : Nat → Except JsError α} (attempt : Nat)
    {le : Option JsError} {ds : List Nat} {e : JsError}
    (ha : attempt < MAX_RETRIES) (hc : client attempt = .error e)
    (hr : (e.isError && isRetryableError e.message) = true) :
    executeWithRetryAux client attempt le ds =
      executeWithRetryAux client (attempt + 1) (some e)
        (ds ++ [INITIAL_RETRY_DELAY_MS * 2 ^ attempt]) := by
  conv_lhs => rw [executeWithRetryAux.eq_def]
  rw [dif_pos ha, hc]
  simp only [hr, if_true]

theorem ewr_exhausted {α : Type} {client : Nat → Except JsError α} (attempt : Nat)
    {le : JsError} {ds : List Nat} (ha : ¬ attempt < MAX_RETRIES) :
    executeWithRetryAux client attempt (some le) ds =
      (if isHtmlErrorResponse le.message then .error serverErrorAfterRetries else .error le,
        ds) := by
  conv_lhs => rw [executeWithRetryAux.eq_def]
  rw [dif_neg ha, ewrAfterLoop]
  by_cases h : isHtmlErrorResponse le.message <;> simp [h]

theorem runControllerAux_tokenLimit (oracle : List ReviewerGroup → AnalyzeOutcome)
    (groups : List ReviewerGroup) (l max : Nat)
    (hf : oracle (groupsToAnalyze groups l) = .tokenLimit) :
    runControllerAux oracle groups l max =
      if (minComments + l) / 2 < minComments ∨ (minComments + l) / 2 = l
      then (.error .tokenLimit, 1)
      else ((runControllerAux oracle groups ((minComments + l) / 2) l).1,
            (runControllerAux oracle groups ((minComments + l) / 2) l).2 + 1) := by
  conv_lhs => rw [runControllerAux.eq_def]
  rw [hf]
  by_cases h : (minComments + l) / 2 < minComments ∨ (minComments + l) / 2 = l
  · rw [dif_pos h, if_pos h]
  · rw [dif_neg h, if_neg h]

theorem controllerTrace_head (oracle : List ReviewerGroup → AnalyzeOutcome)
    (groups : List ReviewerGroup) (l max : Nat) :
    (controllerTrace oracle groups l max).head? = some (l, max) := by
  rw [controllerTrace.eq_def]
  simp

theorem controllerTrace_eq_stop (oracle : List ReviewerGroup → AnalyzeOutcome)
    (groups : List ReviewerGroup) (l max : Nat)
    (ho : oracle (groupsToAnalyze groups l) ≠ .tokenLimit) :
    controllerTrace oracle groups l max = [(l, max)] := by
  rw [controllerTrace.eq_def]
  cases h : oracle (groupsToAnalyze groups l) <;> simp_all

theorem controllerTrace_eq_tokenLimit (oracle : List ReviewerGroup → AnalyzeOutcome)
    (groups : List ReviewerGroup) (l max : Nat)
    (ho : oracle (groupsToAnalyze groups l) = .tokenLimit) :
    controllerTrace oracle groups l max =
      (l, max) ::
        (if (minComments + l) / 2 < minComments ∨ (minComments + l) / 2 = l then []
         else controllerTrace oracle groups ((minComments + l) / 2) l) := by
  conv_lhs => rw [controllerTrace.eq_def]
  rw [ho]
  by_cases h : (minComments + l) / 2 < minComments ∨ (minComments + l) / 2 = l
  · rw [dif_pos h, if_pos h]
  · rw [dif_neg h, if_neg h]

theorem controllerTrace_chain (oracle : List ReviewerGroup → AnalyzeOutcome)
    (groups : List ReviewerGroup) (l max : Nat) (hlm : l ≤ max) :
    List.Chain' (fun a b : Nat × Nat => b.2 ≤ a.2) (controllerTrace oracle groups l max) := by
  induction l using Nat.strong_induction_on generalizing max with
  | _ l ih =>
    by_cases ho : oracle (groupsToAnalyze groups l) = .tokenLimit
    · rw [controllerTrace_eq_tokenLimit oracle groups l max ho]
      by_cases h : (minComments + l) / 2 < minComments ∨ (minComments + l) / 2 = l
      · rw [if_pos h]
        simp
      · rw [if_neg h]
        have hl1 : (minComments + l) / 2 < l := by
          simp only [minComments] at h ⊢
          omega
        rw [List.chain'_cons']
        refine ⟨?_, ih _ hl1 l hl1.le⟩
        intro b hb
        rw [controllerTrace_head] at hb
        simp only [Option.mem_def, Option.some.injEq] at hb
        subst hb
        exact hlm
    · rw [controllerTrace_eq_stop oracle groups l max ho]
      simp

/-! ### Aggregation lemmas -/

theorem cloneActivity_eq (a : UserActivity) : cloneActivity a = a := rfl

theorem addActivity_login (e a : UserActivity) : (addActivity e a).login = e.login := rfl

theorem addActivity_get (p : CounterField) (e a : UserActivity) :
    p.get (addActivity e a) = p.get e + p.get a := by
  cases p <;> rfl

theorem mem_logins_insertActivity (m : List UserActivity) (a : UserActivity) (lg : String) :
    lg ∈ (insertActivity m a).map (·.login) ↔
      lg ∈ m.map (·.login) ∨ lg = a.login := by
  induction m with
  | nil => simp [insertActivity, cloneActivity]
  | cons e rest ih =>
    by_cases he : e.login = a.login
    · rw [insertActivity, if_pos he]
      simp only [List.map_cons, List.mem_cons, addActivity_login, he]
      tauto
    · rw [insertActivity, if_neg he]
      simp only [List.map_cons, List.mem_cons, ih]
      tauto

theorem nodup_logins_insertActivity (m : List UserActivity) (a : UserActivity)
    (h : (m.map (·.login)).Nodup) :
    ((insertActivity m a).map (·.login)).Nodup := by
  induction m with
  | nil => simp [insertActivity, cloneActivity]
  | cons e rest ih =>
    simp only [List.map_cons, List.nodup_cons] at h
    obtain ⟨h1, h2⟩ := h
    by_cases he : e.login = a.login
    · rw [insertActivity, if_pos he]
      simp only [List.map_cons, List.nodup_cons, addActivity_login]
      exact ⟨h1, h2⟩
    · rw [insertActivity, if_neg he]
      simp only [List.map_cons, List.nodup_cons]
      refine ⟨?_, ih h2⟩
      intro hmem
      rcases (mem_logins_insertActivity rest a e.login).mp hmem with h3 | h3
      · exact h1 h3
      · exact he h3

theorem sumForLogin_cons (f : UserActivity → Nat) (lg : String) (e : UserActivity)
    (m : List UserActivity) :
    sumForLogin f lg (e :: m) =
      (if e.login == lg then f e else 0) + sumForLogin f lg m := by
  by_cases h : e.login == lg <;> simp [sumForLogin, List.filter_cons, h]

theorem sumForLogin_insertActivity (f : UserActivity → Nat)
    (hadd : ∀ e a, f (addActivity e a) = f e + f a)
    (m : List UserActivity) (a : UserActivity) (lg : String) :
    sumForLogin f lg (insertActivity m a) =
      sumForLogin f lg m + (if a.login == lg then f a else 0) := by
  induction m with
  | nil =>
    rw [insertActivity]
    rw [cloneActivity_eq]
    by_cases h : a.login == lg <;> simp [sumForLogin, List.filter_cons, h]
  | cons e rest ih =>
    by_cases he : e.login = a.login
    · rw [insertActivity, if_pos he, sumForLogin_cons, sumForLogin_cons]
      have hl : (addActivity e a).login = e.login := rfl
      rw [hl, hadd]
      by_cases h : e.login == lg
      · have h' : a.login == lg := by rw [← he]; exact h
        simp only [h, h', if_true]
        omega
      · have h' : (a.login == lg) = false := by
          rw [← he]
          simpa using h
        simp only [h, h', Bool.false_eq_true, if_false]
        omega
    · rw [insertActivity, if_neg he, sumForLogin_cons, sumForLogin_cons, ih]
      omega

theorem reposForLogin_cons (lg : String) (e : UserActivity) (m : List UserActivity) :
    reposForLogin lg (e :: m) =
      (if e.login == lg then e.reposActiveIn else ∅) ∪ reposForLogin lg m := by
  by_cases h : e.login == lg <;> simp [reposForLogin, List.filter_cons, h]

theorem reposForLogin_insertActivity (m : List UserActivity) (a : UserActivity)
    (lg : String) :
    reposForLogin lg (insertActivity m a) =
      reposForLogin lg m ∪ (if a.login == lg then a.reposActiveIn else ∅) := by
  induction m with
  | nil =>
    rw [insertActivity, cloneActivity_eq, reposForLogin_cons]
    by_cases h : a.login == lg <;> simp [reposForLogin, h]
  | cons e rest ih =>
    by_cases he : e.login = a.login
    · rw [insertActivity, if_pos he, reposForLogin_cons, reposForLogin_cons]
      have hl : (addActivity e a).login = e.login := rfl
      have hr : (addActivity e a).reposActiveIn = e.reposActiveIn ∪ a.reposActiveIn := rfl
      rw [hl, hr]
      by_cases h : e.login == lg
      · have h' : a.login == lg := by rw [← he]; exact h
        simp only [h, h', if_true]
        rw [Finset.union_right_comm]
      · have h' : (a.login == lg) = false := by
          rw [← he]
          simpa using h
        simp [h, h']
    · rw [insertActivity, if_neg he, reposForLogin_cons, reposForLogin_cons, ih]
      rw [Finset.union_assoc]

theorem foldl_insertActivity_logins (entries : List UserActivity)
    (init : List UserActivity) (lg : String) :
    lg ∈ ((entries.foldl insertActivity init).map (·.login)) ↔
      lg ∈ init.map (·.login) ∨ ∃ e ∈ entries, e.login = lg := by
  induction entries generalizing init with
  | nil => simp
  | cons a rest ih =>
    rw [List.foldl_cons, ih]
    rw [mem_logins_insertActivity]
    simp only [List.mem_cons]
    constructor
    · rintro ((h | h) | h)
      · exact Or.inl h
      · exact Or.inr ⟨a, Or.inl rfl, h.symm⟩
      · obtain ⟨e, he, hl⟩ := h
        exact Or.inr ⟨e, Or.inr he, hl⟩
    · rintro (h | ⟨e, (rfl | he), hl⟩)
      · exact Or.inl (Or.inl h)
      · exact Or.inl (Or.inr hl.symm)
      · exact Or.inr ⟨e, he, hl⟩

theorem foldl_insertActivity_nodup (entries : List UserActivity)
    (init : List UserActivity) (h : (init.map (·.login)).Nodup) :
    ((entries.foldl insertActivity init).map (·.login)).Nodup := by
  induction entries generalizing init with
  | nil => exact h
  | cons a rest ih =>
    rw [List.foldl_cons]
    exact ih _ (nodup_logins_insertActivity init a h)

theorem foldl_insertActivity_sumForLogin (f : UserActivity → Nat)
    (hadd : ∀ e a, f (addActivity e a) = f e + f a)
    (entries : List UserActivity) (init : List UserActivity) (lg : String) :
    sumForLogin f lg (entries.foldl insertActivity init) =
      sumForLogin f lg init + sumForLogin f lg entries := by
  induction entries generalizing init with
  | nil => simp [sumForLogin]
  | cons a rest ih =>
    rw [List.foldl_cons, ih, sumForLogin_insertActivity f hadd, sumForLogin_cons]
    omega

theorem foldl_insertActivity_reposForLogin (entries : List UserActivity)
    (init : List UserActivity) (lg : String) :
    reposForLogin lg (entries.foldl insertActivity init) =
      reposForLogin lg init ∪ reposForLogin lg entries := by
  induction entries generalizing init with
  | nil => simp [reposForLogin]
  | cons a rest ih =>
    rw [List.foldl_cons, ih, reposForLogin_insertActivity, reposForLogin_cons]
    rw [Finset.union_assoc]

theorem sumForLogin_eq_zero (f : UserActivity → Nat) (lg : String)
    (m : List UserActivity) (h : lg ∉ m.map (·.login)) : sumForLogin f lg m = 0 := by
  induction m with
  | nil => rfl
  | cons e rest ih =>
    simp only [List.map_cons, List.mem_cons, not_or] at h
    rw [sumForLogin_cons, if_neg (by simpa using fun hh : e.login = lg => h.1 hh.symm),
      ih h.2]

theorem entry_eq_sumForLogin (f : UserActivity → Nat) (m : List UserActivity)
    (h : (m.map (·.login)).Nodup) (e : UserActivity) (he : e ∈ m) :
    f e = sumForLogin f e.login m := by
  induction m with
  | nil => cases he
  | cons x rest ih =>
    simp only [List.map_cons, List.nodup_cons] at h
    obtain ⟨h1, h2⟩ := h
    rw [sumForLogin_cons]
    rcases List.mem_cons.mp he with rfl | he2
    · rw [if_pos (by simp), sumForLogin_eq_zero f _ rest h1]
      omega
    · have hne : ¬ x.login == e.login := by
        simp only [beq_iff_eq]
        intro hh
        exact h1 (hh ▸ List.mem_map_of_mem (·.login) he2)
      rw [if_neg hne, ih h2 he2]
      omega

theorem reposForLogin_eq_empty (lg : String) (m : List UserActivity)
    (h : lg ∉ m.map (·.login)) : reposForLogin lg m = ∅ := by
  induction m with
  | nil => rfl
  | cons e rest ih =>
    simp only [List.map_cons, List.mem_cons, not_or] at h
    rw [reposForLogin_cons, if_neg (by simpa using fun hh : e.login = lg => h.1 hh.symm),
      ih h.2]
    simp

theorem entry_eq_reposForLogin (m : List UserActivity)
    (h : (m.map (·.login)).Nodup) (e : UserActivity) (he : e ∈ m) :
    e.reposActiveIn = reposForLogin e.login m := by
  induction m with
  | nil => cases he
  | cons x rest ih =>
    simp only [List.map_cons, List.nodup_cons] at h
    obtain ⟨h1, h2⟩ := h
    rw [reposForLogin_cons]
    rcases List.mem_cons.mp he with rfl | he2
    · rw [if_pos (by simp), reposForLogin_eq_empty _ rest h1]
      simp
    · have hne : ¬ x.login == e.login := by
        simp only [beq_iff_eq]
        intro hh
        exact h1 (hh ▸ List.mem_map_of_mem (·.login) he2)
      rw [if_neg hne, ih h2 he2]
      simp

theorem sum_map_insertActivity (f : UserActivity → Nat)
    (hadd : ∀ e a, f (addActivity e a) = f e + f a)
    (m : List UserActivity) (a : UserActivity) :
    ((insertActivity m a).map f).sum = (m.map f).sum + f a := by
  induction m with
  | nil => simp [insertActivity, cloneActivity_eq]
  | cons e rest ih =>
    by_cases he : e.login = a.login
    · rw [insertActivity, if_pos he]
      simp only [List.map_cons, List.sum_cons, hadd]
      omega
    · rw [insertActivity, if_neg he]
      simp only [List.map_cons, List.sum_cons, ih]
      omega

theorem sum_map_foldl_insertActivity (f : UserActivity → Nat)
    (hadd : ∀ e a, f (addActivity e a) = f e + f a)
    (entries init : List UserActivity) :
    ((entries.foldl insertActivity init).map f).sum =
      (init.map f).sum + (entries.map f).sum := by
  induction entries generalizing init with
  | nil => simp
  | cons a rest ih =>
    rw [List.foldl_cons, ih, sum_map_insertActivity f hadd]
    simp only [List.map_cons, List.sum_cons]
    omega

/-! ### Decimal representation and key injectivity -/

theorem digitChar_ne_slash : ∀ m, m < 10 → Nat.digitChar m ≠ '/' := by
  decide

theorem digitVal_digitChar : ∀ m, m < 10 → digitVal (Nat.digitChar m) = m := by
  decide

theorem toDigitsCore_acc (fuel n : Nat) (acc : List Char) :
    Nat.toDigitsCore 10 fuel n acc = Nat.toDigitsCore 10 fuel n [] ++ acc := by
  induction fuel generalizing n acc with
  | zero => simp [Nat.toDigitsCore]
  | succ f ih =>
    rw [Nat.toDigitsCore]
    conv_rhs => rw [Nat.toDigitsCore]
    by_cases h : n / 10 = 0
    · simp [h]
    · simp only [h, if_false]
      rw [ih (n / 10), ih (n / 10) [Nat.digitChar (n % 10)]]
      simp

theorem toDigitsCore_no_slash (fuel n : Nat) (acc : List Char)
    (hacc : ∀ c ∈ acc, c ≠ '/') :
    ∀ c ∈ Nat.toDigitsCore 10 fuel n acc, c ≠ '/' := by
  induction fuel generalizing n acc with
  | zero => simpa [Nat.toDigitsCore] using hacc
  | succ f ih =>
    rw [Nat.toDigitsCore]
    by_cases h : n / 10 = 0
    · simp only [h, if_pos rfl]
      intro c hc
      rcases List.mem_cons.mp hc with rfl | hc2
      · exact digitChar_ne_slash _ (Nat.mod_lt n (by omega))
      · exact hacc c hc2
    · simp only [h, if_false]
      apply ih
      intro c hc
      rcases List.mem_cons.mp hc with rfl | hc2
      · exact digitChar_ne_slash _ (Nat.mod_lt n (by omega))
      · exact hacc c hc2

theorem valOfDigits_concat (l : List Char) (c : Char) :
    valOfDigits (l ++ [c]) = valOfDigits l * 10 + digitVal c := by
  simp [valOfDigits, List.foldl_append]

theorem toDigitsCore_val (fuel n : Nat) (hfn : n < fuel) :
    valOfDigits (Nat.toDigitsCore 10 fuel n []) = n := by
  induction fuel generalizing n with
  | zero => omega
  | succ f ih =>
    rw [Nat.toDigitsCore]
    by_cases h : n / 10 = 0
    · simp only [h, if_pos rfl]
      have hn : n < 10 := by omega
      rw [Nat.mod_eq_of_lt hn]
      simp [valOfDigits, digitVal_digitChar n hn]
    · simp only [h, if_false]
      rw [toDigitsCore_acc, valOfDigits_concat,
        ih (n / 10) (by omega),
        digitVal_digitChar _ (Nat.mod_lt n (by omega))]
      omega

theorem repr_no_slash (n : Nat) : ∀ c ∈ (Nat.repr n).data, c ≠ '/' := by
  intro c hc
  have : (Nat.repr n).data = Nat.toDigitsCore 10 (n + 1) n [] := rfl
  rw [this] at hc
  exact toDigitsCore_no_slash (n + 1) n [] (by simp) c hc

theorem repr_injective {m n : Nat} (h : Nat.repr m = Nat.repr n) : m = n := by
  have hd : (Nat.repr m).data = (Nat.repr n).data := congrArg String.data h
  have hm : (Nat.repr m).data = Nat.toDigitsCore 10 (m + 1) m [] := rfl
  have hn : (Nat.repr n).data = Nat.toDigitsCore 10 (n + 1) n [] := rfl
  rw [hm, hn] at hd
  have := congrArg valOfDigits hd
  rw [toDigitsCore_val (m + 1) m (by omega), toDigitsCore_val (n + 1) n (by omega)] at this
  exact this

theorem append_slash_inj (a : List Char) :
    ∀ (c b d : List Char), '/' ∉ b → '/' ∉ d →
      a ++ '/' :: b = c ++ '/' :: d → a = c ∧ b = d := by
  induction a with
  | nil =>
    intro c b d hb hd h
    cases c with
    | nil =>
      simp only [List.nil_append, List.cons.injEq] at h
      exact ⟨rfl, h.2⟩
    | cons x cs =>
      simp only [List.nil_append, List.cons_append, List.cons.injEq] at h
      exfalso
      apply hb
      rw [h.2]
      simp
  | cons y ys ih =>
    intro c b d hb hd h
    cases c with
    | nil =>
      simp only [List.cons_append, List.nil_append, List.cons.injEq] at h
      exfalso
      apply hd
      rw [← h.2]
      simp
    | cons x cs =>
      simp only [List.cons_append, List.cons.injEq] at h
      obtain ⟨rfl, h2⟩ := h
      obtain ⟨h3, h4⟩ := ih cs b d hb hd h2
      exact ⟨by rw [h3], h4⟩

theorem prKey_injective {r1 r2 : String} {n1 n2 : Nat}
    (h : prKey r1 n1 = prKey r2 n2) : r1 = r2 ∧ n1 = n2 := by
  have hd := congrArg String.data h
  have hkey : ∀ (r : String) (n : Nat),
      (prKey r n).data = r.data ++ '/' :: (Nat.repr n).data := by
    intro r n
    show ((r ++ "/") ++ toString n).data = _
    rw [String.data_append, String.data_append, List.append_assoc]
    rfl
  rw [hkey, hkey] at hd
  have hb : '/' ∉ (Nat.repr n1).data := fun hm => repr_no_slash n1 '/' hm rfl
  have hdd : '/' ∉ (Nat.repr n2).data := fun hm => repr_no_slash n2 '/' hm rfl
  obtain ⟨h1, h2⟩ := append_slash_inj r1.data r2.data _ _ hb hdd hd
  constructor
  · cases r1
    cases r2
    exact congrArg String.mk h1
  · apply repr_injective
    have hmk : (Nat.repr n1).data = (Nat.repr n2).data := h2
    cases hq1 : Nat.repr n1
    cases hq2 : Nat.repr n2
    rw [hq1, hq2] at hmk
    exact congrArg String.mk hmk

/-! ### PR-ranking grouping lemmas -/

theorem bumpRankingGroup_fields (g : PRGroupAcc) (d : ReviewCommentDetail) :
    (bumpRankingGroup g d).repo = g.repo ∧ (bumpRankingGroup g d).number = g.number ∧
      (bumpRankingGroup g d).comments = g.comments + 1 ∧
      (bumpRankingGroup g d).reviewers = insert d.reviewer g.reviewers :=
  ⟨rfl, rfl, rfl, rfl⟩

theorem mem_keys_insertRankingDetail (m : List PRGroupAcc) (d : ReviewCommentDetail)
    (k : String) :
    k ∈ (insertRankingDetail m d).map (fun g => prKey g.repo g.number) ↔
      k ∈ m.map (fun g => prKey g.repo g.number) ∨ k = prKey d.pr.repo d.pr.number := by
  induction m with
  | nil => simp [insertRankingDetail, newRankingGroup]
  | cons g rest ih =>
    by_cases hg : prKey g.repo g.number = prKey d.pr.repo d.pr.number
    · rw [insertRankingDetail, if_pos hg]
      simp only [List.map_cons, List.mem_cons]
      have : prKey (bumpRankingGroup g d).repo (bumpRankingGroup g d).number
          = prKey g.repo g.number := rfl
      rw [this, hg]
      tauto
    · rw [insertRankingDetail, if_neg hg]
      simp only [List.map_cons, List.mem_cons, ih]
      tauto

theorem nodup_keys_insertRankingDetail (m : List PRGroupAcc) (d : ReviewCommentDetail)
    (h : (m.map (fun g => prKey g.repo g.number)).Nodup) :
    ((insertRankingDetail m d).map (fun g => prKey g.repo g.number)).Nodup := by
  induction m with
  | nil => simp [insertRankingDetail, newRankingGroup]
  | cons g rest ih =>
    simp only [List.map_cons, List.nodup_cons] at h
    obtain ⟨h1, h2⟩ := h
    by_cases hg : prKey g.repo g.number = prKey d.pr.repo d.pr.number
    · rw [insertRankingDetail, if_pos hg]
      simp only [List.map_cons, List.nodup_cons]
      exact ⟨h1, h2⟩
    · rw [insertRankingDetail, if_neg hg]
      simp only [List.map_cons, List.nodup_cons]
      refine ⟨?_, ih h2⟩
      intro hmem
      rcases (mem_keys_insertRankingDetail rest d _).mp hmem with h3 | h3
      · exact h1 h3
      · exact hg h3

theorem commentsForKey_cons (k : String) (g : PRGroupAcc) (m : List PRGroupAcc) :
    commentsForKey k (g :: m) =
      (if prKey g.repo g.number == k then g.comments else 0) + commentsForKey k m := by
  by_cases h : prKey g.repo g.number == k <;>
    simp [commentsForKey, List.filter_cons, h]

theorem reviewersAccForKey_cons (k : String) (g : PRGroupAcc) (m : List PRGroupAcc) :
    reviewersAccForKey k (g :: m) =
      (if prKey g.repo g.number == k then g.reviewers else ∅) ∪ reviewersAccForKey k m := by
  by_cases h : prKey g.repo g.number == k <;>
    simp [reviewersAccForKey, List.filter_cons, h]

theorem commentsForKey_insertRankingDetail (m : List PRGroupAcc)
    (d : ReviewCommentDetail) (k : String) :
    commentsForKey k (insertRankingDetail m d) =
      commentsForKey k m + (if prKey d.pr.repo d.pr.number == k then 1 else 0) := by
  induction m with
  | nil =>
    rw [insertRankingDetail]
    by_cases h : prKey d.pr.repo d.pr.number == k <;>
      simp [commentsForKey, List.filter_cons, newRankingGroup, h]
  | cons g rest ih =>
    by_cases hg : prKey g.repo g.number = prKey d.pr.repo d.pr.number
    · rw [insertRankingDetail, if_pos hg, commentsForKey_cons, commentsForKey_cons]
      have hk : prKey (bumpRankingGroup g d).repo (bumpRankingGroup g d).number
          = prKey g.repo g.number := rfl
      rw [hk]
      have hc : (bumpRankingGroup g d).comments = g.comments + 1 := rfl
      rw [hc]
      by_cases h : prKey g.repo g.number == k
      · have h' : prKey d.pr.repo d.pr.number == k := by rw [← hg]; exact h
        simp only [h, h', if_true]
        omega
      · have h' : (prKey d.pr.repo d.pr.number == k) = false := by
          rw [← hg]
          simpa using h
        simp only [h, h', Bool.false_eq_true, if_false]
        omega
    · rw [insertRankingDetail, if_neg hg, commentsForKey_cons, commentsForKey_cons, ih]
      omega

theorem reviewersAccForKey_insertRankingDetail (m : List PRGroupAcc)
    (d : ReviewCommentDetail) (k : String) :
    reviewersAccForKey k (insertRankingDetail m d) =
      reviewersAccForKey k m ∪
        (if prKey d.pr.repo d.pr.number == k then {d.reviewer} else ∅) := by
  induction m with
  | nil =>
    rw [insertRankingDetail]
    by_cases h : prKey d.pr.repo d.pr.number == k <;>
      simp [reviewersAccForKey, List.filter_cons, newRankingGroup, h]
  | cons g rest ih =>
    by_cases hg : prKey g.repo g.number = prKey d.pr.repo d.pr.number
    · rw [insertRankingDetail, if_pos hg, reviewersAccForKey_cons, reviewersAccForKey_cons]
      have hk : prKey (bumpRankingGroup g d).repo (bumpRankingGroup g d).number
          = prKey g.repo g.number := rfl
      rw [hk]
      have hc : (bumpRankingGroup g d).reviewers = insert d.reviewer g.reviewers := rfl
      rw [hc]
      by_cases h : prKey g.repo g.number == k
      · have h' : prKey d.pr.repo d.pr.number == k := by rw [← hg]; exact h
        simp only [h, h', if_true]
        rw [Finset.insert_eq]
        simp [Finset.union_comm, Finset.union_assoc, Finset.union_left_comm]
      · have h' : (prKey d.pr.repo d.pr.number == k) = false := by
          rw [← hg]
          simpa using h
        simp [h, h']
    · rw [insertRankingDetail, if_neg hg, reviewersAccForKey_cons, reviewersAccForKey_cons,
        ih, Finset.union_assoc]

theorem countKey_cons (k : String) (d : ReviewCommentDetail)
    (rest : List ReviewCommentDetail) :
    countKey k (d :: rest) =
      (if prKey d.pr.repo d.pr.number == k then 1 else 0) + countKey k rest := by
  by_cases h : prKey d.pr.repo d.pr.number == k
  · simp only [countKey, List.filter_cons, h, if_true, List.length_cons]
    omega
  · simp [countKey, List.filter_cons, h]

theorem reviewersForKey_cons (k : String) (d : ReviewCommentDetail)
    (rest : List ReviewCommentDetail) :
    reviewersForKey k (d :: rest) =
      (if prKey d.pr.repo d.pr.number == k then {d.reviewer} else ∅) ∪
        reviewersForKey k rest := by
  by_cases h : prKey d.pr.repo d.pr.number == k <;>
    simp [reviewersForKey, List.filter_cons, h, Finset.insert_eq]

theorem foldl_insertRankingDetail_keys (details : List ReviewCommentDetail)
    (init : List PRGroupAcc) (k : String) :
    k ∈ ((details.foldl insertRankingDetail init).map (fun g => prKey g.repo g.number)) ↔
      k ∈ init.map (fun g => prKey g.repo g.number) ∨
        ∃ d ∈ details, prKey d.pr.repo d.pr.number = k := by
  induction details generalizing init with
  | nil => simp
  | cons d rest ih =>
    rw [List.foldl_cons, ih, mem_keys_insertRankingDetail]
    simp only [List.mem_cons]
    constructor
    · rintro ((h | h) | h)
      · exact Or.inl h
      · exact Or.inr ⟨d, Or.inl rfl, h.symm⟩
      · obtain ⟨x, hx, hk⟩ := h
        exact Or.inr ⟨x, Or.inr hx, hk⟩
    · rintro (h | ⟨x, (rfl | hx), hk⟩)
      · exact Or.inl (Or.inl h)
      · exact Or.inl (Or.inr hk.symm)
      · exact Or.inr ⟨x, hx, hk⟩

theorem foldl_insertRankingDetail_nodup (details : List ReviewCommentDetail)
    (init : List PRGroupAcc)
    (h : (init.map (fun g => prKey g.repo g.number)).Nodup) :
    ((details.foldl insertRankingDetail init).map (fun g => prKey g.repo g.number)).Nodup := by
  induction details generalizing init with
  | nil => exact h
  | cons d rest ih =>
    rw [List.foldl_cons]
    exact ih _ (nodup_keys_insertRankingDetail init d h)

theorem foldl_insertRankingDetail_comments (details : List ReviewCommentDetail)
    (init : List PRGroupAcc) (k : String) :
    commentsForKey k (details.foldl insertRankingDetail init) =
      commentsForKey k init + countKey k details := by
  induction details generalizing init with
  | nil => simp [countKey]
  | cons d rest ih =>
    rw [List.foldl_cons, ih, commentsForKey_insertRankingDetail, countKey_cons]
    omega

theorem foldl_insertRankingDetail_reviewers (details : List ReviewCommentDetail)
    (init : List PRGroupAcc) (k : String) :
    reviewersAccForKey k (details.foldl insertRankingDetail init) =
      reviewersAccForKey k init ∪ reviewersForKey k details := by
  induction details generalizing init with
  | nil => simp [reviewersForKey]
  | cons d rest ih =>
    rw [List.foldl_cons, ih, reviewersAccForKey_insertRankingDetail, reviewersForKey_cons,
      Finset.union_assoc]

theorem commentsForKey_eq_zero (k : String) (m : List PRGroupAcc)
    (h : k ∉ m.map (fun g => prKey g.repo g.number)) : commentsForKey k m = 0 := by
  induction m with
  | nil => rfl
  | cons g rest ih =>
    simp only [List.map_cons, List.mem_cons, not_or] at h
    rw [commentsForKey_cons,
      if_neg (by simpa using fun hh : prKey g.repo g.number = k => h.1 hh.symm), ih h.2]

theorem reviewersAccForKey_eq_empty (k : String) (m : List PRGroupAcc)
    (h : k ∉ m.map (fun g => prKey g.repo g.number)) : reviewersAccForKey k m = ∅ := by
  induction m with
  | nil => rfl
  | cons g rest ih =>
    simp only [List.map_cons, List.mem_cons, not_or] at h
    rw [reviewersAccForKey_cons,
      if_neg (by simpa using fun hh : prKey g.repo g.number = k => h.1 hh.symm), ih h.2]
    simp

theorem entry_eq_commentsForKey (m : List PRGroupAcc)
    (h : (m.map (fun g => prKey g.repo g.number)).Nodup) (g : PRGroupAcc) (hg : g ∈ m) :
    g.comments = commentsForKey (prKey g.repo g.number) m := by
  induction m with
  | nil => cases hg
  | cons x rest ih =>
    simp only [List.map_cons, List.nodup_cons] at h
    obtain ⟨h1, h2⟩ := h
    rw [commentsForKey_cons]
    rcases List.mem_cons.mp hg with rfl | hg2
    · rw [if_pos (by simp), commentsForKey_eq_zero _ rest h1]
      omega
    · have hne : ¬ prKey x.repo x.number == prKey g.repo g.number := by
        simp only [beq_iff_eq]
        intro hh
        exact h1 (hh ▸ List.mem_map_of_mem (fun g => prKey g.repo g.number) hg2)
      rw [if_neg hne, ih h2 hg2]
      omega

theorem entry_eq_reviewersAccForKey (m : List PRGroupAcc)
    (h : (m.map (fun g => prKey g.repo g.number)).Nodup) (g : PRGroupAcc) (hg : g ∈ m) :
    g.reviewers = reviewersAccForKey (prKey g.repo g.number) m := by
  induction m with
  | nil => cases hg
  | cons x rest ih =>
    simp only [List.map_cons, List.nodup_cons] at h
    obtain ⟨h1, h2⟩ := h
    rw [reviewersAccForKey_cons]
    rcases List.mem_cons.mp hg with rfl | hg2
    · rw [if_pos (by simp), reviewersAccForKey_eq_empty _ rest h1]
      simp
    · have hne : ¬ prKey x.repo x.number == prKey g.repo g.number := by
        simp only [beq_iff_eq]
        intro hh
        exact h1 (hh ▸ List.mem_map_of_mem (fun g => prKey g.repo g.number) hg2)
      rw [if_neg hne, ih h2 hg2]
      simp

theorem mem_insertRankingDetail_provenance (m : List PRGroupAcc) (d : ReviewCommentDetail) :
    ∀ g' ∈ insertRankingDetail m d,
      (∃ g ∈ m, g'.repo = g.repo ∧ g'.number = g.number) ∨
        (g'.repo = d.pr.repo ∧ g'.number = d.pr.number) := by
  induction m with
  | nil =>
    intro g' hg'
    rw [insertRankingDetail] at hg'
    simp only [List.mem_singleton] at hg'
    subst hg'
    exact Or.inr ⟨rfl, rfl⟩
  | cons g rest ih =>
    intro g' hg'
    by_cases hg : prKey g.repo g.number = prKey d.pr.repo d.pr.number
    · rw [insertRankingDetail, if_pos hg] at hg'
      rcases List.mem_cons.mp hg' with rfl | hmem
      · exact Or.inl ⟨g, List.mem_cons_self g rest, rfl, rfl⟩
      · exact Or.inl ⟨g', List.mem_cons_of_mem g hmem, rfl, rfl⟩
    · rw [insertRankingDetail, if_neg hg] at hg'
      rcases List.mem_cons.mp hg' with rfl | hmem
      · exact Or.inl ⟨g', List.mem_cons_self g' rest, rfl, rfl⟩
      · rcases ih g' hmem with ⟨g0, hg0, he⟩ | he
        · exact Or.inl ⟨g0, List.mem_cons_of_mem g hg0, he⟩
        · exact Or.inr he

theorem foldl_insertRankingDetail_provenance (details : List ReviewCommentDetail)
    (init : List PRGroupAcc) :
    ∀ g ∈ details.foldl insertRankingDetail init,
      (∃ g0 ∈ init, g.repo = g0.repo ∧ g.number = g0.number) ∨
        ∃ d ∈ details, g.repo = d.pr.repo ∧ g.number = d.pr.number := by
  induction details generalizing init with
  | nil =>
    intro g hg
    exact Or.inl ⟨g, hg, rfl, rfl⟩
  | cons d rest ih =>
    intro g hg
    rw [List.foldl_cons] at hg
    rcases ih (insertRankingDetail init d) g hg with ⟨g0, hg0, he⟩ | ⟨d0, hd0, he⟩
    · rcases mem_insertRankingDetail_provenance init d g0 hg0 with ⟨g1, hg1, he1⟩ | he1
      · exact Or.inl ⟨g1, hg1, he.1.trans he1.1, he.2.trans he1.2⟩
      · exact Or.inr ⟨d, List.mem_cons_self d rest, he.1.trans he1.1, he.2.trans he1.2⟩
    · exact Or.inr ⟨d0, List.mem_cons_of_mem d hd0, he⟩

theorem withRanks_length (i : Nat) (gs : List PRGroupAcc) :
    (withRanks i gs).length = gs.length := by
  induction gs generalizing i with
  | nil => rfl
  | cons g rest ih => simp [withRanks, ih]

theorem withRanks_map_rank (i : Nat) (gs : List PRGroupAcc) :
    (withRanks i gs).map (·.rank) = List.range' (i + 1) gs.length := by
  induction gs generalizing i with
  | nil => simp [withRanks]
  | cons g rest ih =>
    rw [withRanks]
    simp only [List.map_cons, ih, List.length_cons]
    rw [List.range'_succ]
    rfl

theorem mem_withRanks_imp (i : Nat) (gs : List PRGroupAcc) (r : PRRankingRow)
    (h : r ∈ withRanks i gs) : ∃ j g, g ∈ gs ∧ r = mkRankingRow j g := by
  induction gs generalizing i with
  | nil => cases h
  | cons g rest ih =>
    rw [withRanks] at h
    rcases List.mem_cons.mp h with rfl | h2
    · exact ⟨i, g, List.mem_cons_self g rest, rfl⟩
    · obtain ⟨j, g', hg', rfl⟩ := ih (i + 1) h2
      exact ⟨j, g', List.mem_cons_of_mem g hg', rfl⟩

theorem mem_withRanks_of_mem (i : Nat) (gs : List PRGroupAcc) (g : PRGroupAcc)
    (h : g ∈ gs) : ∃ j, mkRankingRow j g ∈ withRanks i gs := by
  induction gs generalizing i with
  | nil => cases h
  | cons x rest ih =>
    rcases List.mem_cons.mp h with rfl | h2
    · exact ⟨i, by rw [withRanks]; exact List.mem_cons_self _ _⟩
    · obtain ⟨j, hj⟩ := ih (i + 1) h2
      exact ⟨j, by rw [withRanks]; exact List.mem_cons_of_mem _ hj⟩

theorem withRanks_pairwise {S : PRGroupAcc → PRGroupAcc → Prop}
    {R : PRRankingRow → PRRankingRow → Prop}
    (hSR : ∀ i j g1 g2, S g1 g2 → R (mkRankingRow i g1) (mkRankingRow j g2))
    (i : Nat) (gs : List PRGroupAcc) (h : List.Pairwise S gs) :
    List.Pairwise R (withRanks i gs) := by
  induction gs generalizing i with
  | nil => simp [withRanks]
  | cons g rest ih =>
    rw [withRanks]
    rw [List.pairwise_cons] at h ⊢
    obtain ⟨h1, h2⟩ := h
    refine ⟨?_, ih (i + 1) h2⟩
    intro r hr
    obtain ⟨j, g', hg', rfl⟩ := mem_withRanks_imp (i + 1) rest r hr
    exact hSR i j g g' (h1 g' hg')

theorem pair_filter_eq (re : String) (n : Nat) (details : List ReviewCommentDetail) :
    (details.filter fun d => prKey d.pr.repo d.pr.number == prKey re n) =
      details.filter fun d => d.pr.repo == re && d.pr.number == n := by
  apply List.filter_congr
  intro d _
  by_cases h : prKey d.pr.repo d.pr.number = prKey re n
  · obtain ⟨h1, h2⟩ := prKey_injective h
    simp [h, h1, h2]
  · have hL : (prKey d.pr.repo d.pr.number == prKey re n) = false := by simpa using h
    by_cases hr : d.pr.repo = re
    · have hn : (d.pr.number == n) = false := by
        simp only [beq_eq_false_iff_ne, ne_eq]
        intro hh
        exact h (by rw [hr, hh])
      rw [hL, hn]
      simp
    · have hre : (d.pr.repo == re) = false := by simpa using hr
      rw [hL, hre]
      simp

/-! ### processPR step lemmas -/

theorem processReview_not_survives (pa : Option String) (s : Option Int) (rep : String)
    (m : ActivityMap) (r : GraphQLReviewNode) (h : reviewSurvives pa s r = false) :
    processReview pa s rep m r = m := by
  cases ha : r.author with
  | none => rw [processReview, ha]
  | some lg =>
    simp only [processReview, ha]
    rw [reviewSurvives, ha] at h
    by_cases h1 : lg = ""
    · rw [if_pos h1]
    · rw [if_neg h1]
      by_cases h2 : isBot lg = true
      · rw [if_pos h2]
      · rw [if_neg h2]
        by_cases h3 : selfMatch pa lg = true
        · rw [if_pos h3]
        · rw [if_neg h3]
          by_cases h4 : sinceExcludes s r.createdAt = true
          · rw [if_pos h4]
          · exfalso
            simp only [Bool.and_eq_false_iff, bne_eq_false_iff_eq, Bool.not_eq_false] at h
            rcases h with ((h' | h') | h') | h'
            · exact h1 h'
            · exact h2 (by simpa using h')
            · exact h3 (by simpa using h')
            · exact h4 (by simpa using h')

theorem processReview_survives (pa : Option String) (s : Option Int) (rep : String)
    (m : ActivityMap) (r : GraphQLReviewNode) (lg : String)
    (ha : r.author = some lg) (h : reviewSurvives pa s r = true) :
    processReview pa s rep m r =
      getOrCreateUpdate m lg fun a => applyReviewState r.state (addRepo rep a) := by
  simp only [processReview, ha]
  rw [reviewSurvives, ha] at h
  simp only [Bool.and_eq_true, bne_iff_ne, ne_eq, Bool.not_eq_true'] at h
  obtain ⟨⟨⟨h1, h2⟩, h3⟩, h4⟩ := h
  rw [if_neg h1, if_neg (by simp [h2]), if_neg (by simp [h3]), if_neg (by simp [h4])]

theorem processComment_not_survives (pr : GraphQLPRNode) (pa : Option String)
    (s : Option Int) (rep : String) (st : ActivityMap × List ReviewCommentDetail)
    (c : GraphQLReviewCommentNode) (h : commentSurvives pa s c = false) :
    processComment pr pa s rep st c = st := by
  cases ha : c.author with
  | none => rw [processComment, ha]
  | some lg =>
    simp only [processComment, ha]
    rw [commentSurvives, ha] at h
    by_cases h1 : lg = ""
    · rw [if_pos h1]
    · rw [if_neg h1]
      by_cases h2 : isBot lg = true
      · rw [if_pos h2]
      · rw [if_neg h2]
        by_cases h3 : selfMatch pa lg = true
        · rw [if_pos h3]
        · rw [if_neg h3]
          by_cases h4 : sinceExcludes s c.createdAt = true
          · rw [if_pos h4]
          · exfalso
            simp only [Bool.and_eq_false_iff, bne_eq_false_iff_eq, Bool.not_eq_false] at h
            rcases h with ((h' | h') | h') | h'
            · exact h1 h'
            · exact h2 (by simpa using h')
            · exact h3 (by simpa using h')
            · exact h4 (by simpa using h')

theorem processComment_survives (pr : GraphQLPRNode) (pa : Option String)
    (s : Option Int) (rep : String) (st : ActivityMap × List ReviewCommentDetail)
    (c : GraphQLReviewCommentNode) (lg : String)
    (ha : c.author = some lg) (h : commentSurvives pa s c = true) :
    processComment pr pa s rep st c =
      (getOrCreateUpdate st.1 lg (bumpComment rep), st.2 ++ [mkDetail pr rep lg c]) := by
  simp only [processComment, ha]
  rw [commentSurvives, ha] at h
  simp only [Bool.and_eq_true, bne_iff_ne, ne_eq, Bool.not_eq_true'] at h
  obtain ⟨⟨⟨h1, h2⟩, h3⟩, h4⟩ := h
  rw [if_neg h1, if_neg (by simp [h2]), if_neg (by simp [h3]), if_neg (by simp [h4])]

theorem foldl_filter_identity {α β : Type} (f : β → α → β) (q : α → Bool)
    (hid : ∀ b a, q a = true → f b a = b) (l : List α) (b : β) :
    l.foldl f b = (l.filter fun a => !q a).foldl f b := by
  induction l generalizing b with
  | nil => rfl
  | cons a rest ih =>
    by_cases h : q a = true
    · rw [List.foldl_cons, hid b a h, List.filter_cons, if_neg (by simp [h])]
      exact ih b
    · rw [List.foldl_cons, List.filter_cons, if_pos (by simp [Bool.not_eq_true] at h ⊢; exact h),
        List.foldl_cons]
      exact ih (f b a)

theorem foldl_ext {α β : Type} (f g : β → α → β) (l : List α)
    (h : ∀ b a, a ∈ l → f b a = g b a) : ∀ b, l.foldl f b = l.foldl g b := by
  induction l with
  | nil => intro b; rfl
  | cons a rest ih =>
    intro b
    rw [List.foldl_cons, List.foldl_cons, h b a (List.mem_cons_self a rest)]
    exact ih (fun b x hx => h b x (List.mem_cons_of_mem a hx)) (g b a)

theorem excludedReview_not_survives (pr : GraphQLPRNode) (s : Option Int)
    (r : GraphQLReviewNode) (h : excludedReview pr r = true) :
    reviewSurvives (pr.author.map jsToLower) s r = false := by
  cases ha : r.author with
  | none => rw [reviewSurvives, ha]
  | some lg =>
    simp only [excludedReview, ha, excludedLogin] at h
    rw [reviewSurvives, ha]
    rcases Bool.or_eq_true_iff.mp h with hb | hs
    · simp [hb]
    · simp [hs]

theorem excludedComment_not_survives (pr : GraphQLPRNode) (s : Option Int)
    (c : GraphQLReviewCommentNode) (h : excludedComment pr c = true) :
    commentSurvives (pr.author.map jsToLower) s c = false := by
  cases ha : c.author with
  | none => rw [commentSurvives, ha]
  | some lg =>
    simp only [excludedComment, ha, excludedLogin] at h
    rw [commentSurvives, ha]
    rcases Bool.or_eq_true_iff.mp h with hb | hs
    · simp [hb]
    · simp [hs]

theorem applyReviewState_login (st : GraphQLReviewState) (a : UserActivity) :
    (applyReviewState st a).login = a.login := by
  cases st <;> rfl

theorem processPR_stripExcluded (pr : GraphQLPRNode) (s : Option Int) (rep : String)
    (st : ActivityMap × List ReviewCommentDetail) :
    processPR pr s rep st = processPR (stripExcluded pr) s rep st := by
  simp only [processPR]
  have hauth : (stripExcluded pr).author = pr.author := rfl
  have hrev : (stripExcluded pr).reviews =
      pr.reviews.filter fun r => !excludedReview pr r := rfl
  have hth : (stripExcluded pr).reviewThreads =
      pr.reviewThreads.map
        (fun th => ⟨th.comments.filter fun c => !excludedComment pr c⟩) := rfl
  rw [hauth, hrev, hth]
  rw [← foldl_filter_identity (processReview (pr.author.map jsToLower) s rep)
    (excludedReview pr)
    (fun m r hr => processReview_not_survives _ _ _ _ _
      (excludedReview_not_survives pr s r hr)) pr.reviews st.1]
  rw [List.foldl_map]
  apply foldl_ext
  intro st2 th _
  show th.comments.foldl (processComment pr (pr.author.map jsToLower) s rep) st2 =
    (th.comments.filter fun c => !excludedComment pr c).foldl
      (processComment (stripExcluded pr) (pr.author.map jsToLower) s rep) st2
  have hpc : processComment (stripExcluded pr) (pr.author.map jsToLower) s rep =
      processComment pr (pr.author.map jsToLower) s rep := rfl
  rw [hpc]
  exact foldl_filter_identity _ _
    (fun b c hc => processComment_not_survives _ _ _ _ _ _
      (excludedComment_not_survives pr s c hc)) th.comments st2

theorem mem_logins_getOrCreateUpdate (m : ActivityMap) (lg : String)
    (f : UserActivity → UserActivity) (hf : ∀ a, (f a).login = a.login) (lg' : String) :
    lg' ∈ (getOrCreateUpdate m lg f).map (·.login) ↔
      lg' ∈ m.map (·.login) ∨ lg' = lg := by
  induction m with
  | nil =>
    simp [getOrCreateUpdate, hf, createEmptyActivity]
  | cons a rest ih =>
    by_cases ha : a.login = lg
    · rw [getOrCreateUpdate, if_pos ha]
      simp only [List.map_cons, List.mem_cons, hf, ha]
      tauto
    · rw [getOrCreateUpdate, if_neg ha]
      simp only [List.map_cons, List.mem_cons, ih]
      tauto

theorem processReview_logins (pa : Option String) (s : Option Int) (rep : String)
    (m : ActivityMap) (r : GraphQLReviewNode) (lg' : String) :
    lg' ∈ ((processReview pa s rep m r).map (·.login)) ↔
      lg' ∈ m.map (·.login) ∨
        (r.author = some lg' ∧ reviewSurvives pa s r = true) := by
  by_cases hs : reviewSurvives pa s r = true
  · cases ha : r.author with
    | none => simp [reviewSurvives, ha] at hs
    | some lg =>
      rw [processReview_survives pa s rep m r lg ha hs]
      rw [mem_logins_getOrCreateUpdate m lg
        (fun a => applyReviewState r.state (addRepo rep a))
        (fun a => applyReviewState_login r.state (addRepo rep a)) lg']
      simp [hs, eq_comm]
  · rw [processReview_not_survives pa s rep m r (by simpa using hs)]
    simp [hs]

theorem foldl_processReview_logins (reviews : List GraphQLReviewNode) (pa : Option String)
    (s : Option Int) (rep : String) (m : ActivityMap) (lg' : String) :
    lg' ∈ ((reviews.foldl (processReview pa s rep) m).map (·.login)) ↔
      lg' ∈ m.map (·.login) ∨
        ∃ r ∈ reviews, r.author = some lg' ∧ reviewSurvives pa s r = true := by
  induction reviews generalizing m with
  | nil => simp
  | cons r rest ih =>
    rw [List.foldl_cons, ih, processReview_logins]
    simp only [List.mem_cons]
    constructor
    · rintro ((h | h) | ⟨x, hx, hh⟩)
      · exact Or.inl h
      · exact Or.inr ⟨r, Or.inl rfl, h⟩
      · exact Or.inr ⟨x, Or.inr hx, hh⟩
    · rintro (h | ⟨x, (rfl | hx), hh⟩)
      · exact Or.inl (Or.inl h)
      · exact Or.inl (Or.inr hh)
      · exact Or.inr ⟨x, hx, hh⟩

theorem processComment_fst_logins (pr : GraphQLPRNode) (pa : Option String)
    (s : Option Int) (rep : String) (st : ActivityMap × List ReviewCommentDetail)
    (c : GraphQLReviewCommentNode) (lg' : String) :
    lg' ∈ ((processComment pr pa s rep st c).1.map (·.login)) ↔
      lg' ∈ st.1.map (·.login) ∨
        (c.author = some lg' ∧ commentSurvives pa s c = true) := by
  by_cases hs : commentSurvives pa s c = true
  · cases ha : c.author with
    | none => simp [commentSurvives, ha] at hs
    | some lg =>
      rw [processComment_survives pr pa s rep st c lg ha hs]
      rw [show (getOrCreateUpdate st.1 lg (bumpComment rep),
          st.2 ++ [mkDetail pr rep lg c]).1 = getOrCreateUpdate st.1 lg (bumpComment rep)
        from rfl]
      rw [mem_logins_getOrCreateUpdate st.1 lg (bumpComment rep) (fun a => rfl) lg']
      simp [hs, eq_comm]
  · rw [processComment_not_survives pr pa s rep st c (by simpa using hs)]
    simp [hs]

theorem foldl_processComment_fst_logins (comments : List GraphQLReviewCommentNode)
    (pr : GraphQLPRNode) (pa : Option String) (s : Option Int) (rep : String)
    (st : ActivityMap × List ReviewCommentDetail) (lg' : String) :
    lg' ∈ ((comments.foldl (processComment pr pa s rep) st).1.map (·.login)) ↔
      lg' ∈ st.1.map (·.login) ∨
        ∃ c ∈ comments, c.author = some lg' ∧ commentSurvives pa s c = true := by
  induction comments generalizing st with
  | nil => simp
  | cons c rest ih =>
    rw [List.foldl_cons, ih, processComment_fst_logins]
    simp only [List.mem_cons]
    constructor
    · rintro ((h | h) | ⟨x, hx, hh⟩)
      · exact Or.inl h
      · exact Or.inr ⟨c, Or.inl rfl, h⟩
      · exact Or.inr ⟨x, Or.inr hx, hh⟩
    · rintro (h | ⟨x, (rfl | hx), hh⟩)
      · exact Or.inl (Or.inl h)
      · exact Or.inl (Or.inr hh)
      · exact Or.inr ⟨x, hx, hh⟩

theorem foldl_threads_fst_logins (threads : List GraphQLThreadNode)
    (pr : GraphQLPRNode) (pa : Option String) (s : Option Int) (rep : String)
    (st : ActivityMap × List ReviewCommentDetail) (lg' : String) :
    lg' ∈ ((threads.foldl
        (fun st2 th => th.comments.foldl (processComment pr pa s rep) st2) st).1.map
          (·.login)) ↔
      lg' ∈ st.1.map (·.login) ∨
        ∃ th ∈ threads, ∃ c ∈ th.comments,
          c.author = some lg' ∧ commentSurvives pa s c = true := by
  induction threads generalizing st with
  | nil => simp
  | cons th rest ih =>
    rw [List.foldl_cons, ih, foldl_processComment_fst_logins]
    simp only [List.mem_cons]
    constructor
    · rintro ((h | ⟨c, hc, hh⟩) | ⟨x, hx, hh⟩)
      · exact Or.inl h
      · exact Or.inr ⟨th, Or.inl rfl, c, hc, hh⟩
      · exact Or.inr ⟨x, Or.inr hx, hh⟩
    · rintro (h | ⟨x, (rfl | hx), c, hc, hh⟩)
      · exact Or.inl (Or.inl h)
      · exact Or.inl (Or.inr ⟨c, hc, hh⟩)
      · exact Or.inr ⟨x, hx, c, hc, hh⟩

theorem processComment_snd (pr : GraphQLPRNode) (pa : Option String) (s : Option Int)
    (rep : String) (st : ActivityMap × List ReviewCommentDetail)
    (c : GraphQLReviewCommentNode) :
    ∃ tail, (processComment pr pa s rep st c).2 = st.2 ++ tail ∧
      ∀ dtl ∈ tail, ∃ lg, c.author = some lg ∧ commentSurvives pa s c = true ∧
        dtl.reviewer = lg := by
  by_cases hs : commentSurvives pa s c = true
  · cases ha : c.author with
    | none => simp [commentSurvives, ha] at hs
    | some lg =>
      refine ⟨[mkDetail pr rep lg c], ?_, ?_⟩
      · rw [processComment_survives pr pa s rep st c lg ha hs]
      · intro dtl hd
        rw [List.mem_singleton] at hd
        exact ⟨lg, rfl, hs, by subst hd; rfl⟩
  · refine ⟨[], ?_, by simp⟩
    rw [processComment_not_survives pr pa s rep st c (by simpa using hs)]
    simp

theorem foldl_processComment_snd (comments : List GraphQLReviewCommentNode)
    (pr : GraphQLPRNode) (pa : Option String) (s : Option Int) (rep : String)
    (st : ActivityMap × List ReviewCommentDetail) :
    ∃ tail, (comments.foldl (processComment pr pa s rep) st).2 = st.2 ++ tail ∧
      ∀ dtl ∈ tail, ∃ c ∈ comments, ∃ lg, c.author = some lg ∧
        commentSurvives pa s c = true ∧ dtl.reviewer = lg := by
  induction comments generalizing st with
  | nil => exact ⟨[], by simp, by simp⟩
  | cons c rest ih =>
    rw [List.foldl_cons]
    obtain ⟨t1, ht1, hp1⟩ := processComment_snd pr pa s rep st c
    obtain ⟨t2, ht2, hp2⟩ := ih (processComment pr pa s rep st c)
    refine ⟨t1 ++ t2, ?_, ?_⟩
    · rw [ht2, ht1, List.append_assoc]
    · intro dtl hd
      rcases List.mem_append.mp hd with hd1 | hd2
      · obtain ⟨lg, h1, h2, h3⟩ := hp1 dtl hd1
        exact ⟨c, List.mem_cons_self c rest, lg, h1, h2, h3⟩
      · obtain ⟨c2, hc2, lg, h1, h2, h3⟩ := hp2 dtl hd2
        exact ⟨c2, List.mem_cons_of_mem c hc2, lg, h1, h2, h3⟩

theorem foldl_threads_snd (threads : List GraphQLThreadNode) (pr : GraphQLPRNode)
    (pa : Option String) (s : Option Int) (rep : String)
    (st : ActivityMap × List ReviewCommentDetail) :
    ∃ tail, (threads.foldl
        (fun st2 th => th.comments.foldl (processComment pr pa s rep) st2) st).2 =
          st.2 ++ tail ∧
      ∀ dtl ∈ tail, ∃ th ∈ threads, ∃ c ∈ th.comments, ∃ lg, c.author = some lg ∧
        commentSurvives pa s c = true ∧ dtl.reviewer = lg := by
  induction threads generalizing st with
  | nil => exact ⟨[], by simp, by simp⟩
  | cons th rest ih =>
    rw [List.foldl_cons]
    obtain ⟨t1, ht1, hp1⟩ := foldl_processComment_snd th.comments pr pa s rep st
    obtain ⟨t2, ht2, hp2⟩ := ih (th.comments.foldl (processComment pr pa s rep) st)
    refine ⟨t1 ++ t2, ?_, ?_⟩
    · rw [ht2, ht1, List.append_assoc]
    · intro dtl hd
      rcases List.mem_append.mp hd with hd1 | hd2
      · obtain ⟨c, hc, lg, h1, h2, h3⟩ := hp1 dtl hd1
        exact ⟨th, List.mem_cons_self th rest, c, hc, lg, h1, h2, h3⟩
      · obtain ⟨th2, hth2, c, hc, lg, h1, h2, h3⟩ := hp2 dtl hd2
        exact ⟨th2, List.mem_cons_of_mem th hth2, c, hc, lg, h1, h2, h3⟩

theorem excluded_not_review_survives (pr : GraphQLPRNode) (s : Option Int)
    (r : GraphQLReviewNode) (lg : String) (ha : r.author = some lg)
    (hex : excludedLogin pr lg = true) :
    reviewSurvives (pr.author.map jsToLower) s r = false := by
  apply excludedReview_not_survives pr s r
  rw [excludedReview, ha]
  exact hex

theorem excluded_not_comment_survives (pr : GraphQLPRNode) (s : Option Int)
    (c : GraphQLReviewCommentNode) (lg : String) (ha : c.author = some lg)
    (hex : excludedLogin pr lg = true) :
    commentSurvives (pr.author.map jsToLower) s c = false := by
  apply excludedComment_not_survives pr s c
  rw [excludedComment, ha]
  exact hex

/-! ### Fetch-walk characterization -/

theorem stepPR_components (s : Option Int) (m : Option Nat) (rep : String)
    (st : FetchState) (pr : GraphQLPRNode) :
    ((stepPR s m rep st pr).activity, (stepPR s m rep st pr).details) =
        processPR pr (effectiveSince s m) rep (st.activity, st.details) ∧
      (stepPR s m rep st pr).prsProcessed = st.prsProcessed + 1 ∧
      (stepPR s m rep st pr).pagesFetched = st.pagesFetched :=
  ⟨rfl, rfl, rfl⟩

theorem foldl_stepPR_pair (s : Option Int) (m : Option Nat) (rep : String)
    (l : List GraphQLPRNode) (st : FetchState) :
    ((l.foldl (stepPR s m rep) st).activity, (l.foldl (stepPR s m rep) st).details) =
      l.foldl (fun p pr => processPR pr (effectiveSince s m) rep p)
        (st.activity, st.details) := by
  induction l generalizing st with
  | nil => rfl
  | cons pr rest ih =>
    rw [List.foldl_cons, List.foldl_cons, ih (stepPR s m rep st pr),
      (stepPR_components s m rep st pr).1]

theorem foldl_stepPR_prsProcessed (s : Option Int) (m : Option Nat) (rep : String)
    (l : List GraphQLPRNode) (st : FetchState) :
    (l.foldl (stepPR s m rep) st).prsProcessed = st.prsProcessed + l.length := by
  induction l generalizing st with
  | nil => simp
  | cons pr rest ih =>
    rw [List.foldl_cons, ih, (stepPR_components s m rep st pr).2.1]
    simp only [List.length_cons]
    omega

theorem foldl_stepPR_pagesFetched (s : Option Int) (m : Option Nat) (rep : String)
    (l : List GraphQLPRNode) (st : FetchState) :
    (l.foldl (stepPR s m rep) st).pagesFetched = st.pagesFetched := by
  induction l generalizing st with
  | nil => rfl
  | cons pr rest ih =>
    rw [List.foldl_cons, ih, (stepPR_components s m rep st pr).2.2]

theorem processPageNodes_eq (s : Option Int) (m : Option Nat) (rep : String)
    (prs : List GraphQLPRNode) (st : FetchState) :
    processPageNodes s m rep st prs =
      ((takeProcess s m st.prsProcessed prs).1.foldl (stepPR s m rep) st,
        (takeProcess s m st.prsProcessed prs).2) := by
  induction prs generalizing st with
  | nil => rfl
  | cons pr rest ih =>
    rw [processPageNodes, takeProcess]
    by_cases h1 : shouldStopMax m st.prsProcessed = true
    · rw [if_pos h1, if_pos h1]
      rfl
    · rw [if_neg h1, if_neg h1]
      by_cases h2 : shouldStopSince m s pr.updatedAt = true
      · rw [if_pos h2, if_pos h2]
        rfl
      · rw [if_neg h2, if_neg h2, ih (stepPR s m rep st pr)]
        rw [(stepPR_components s m rep st pr).2.1]
        rfl

theorem fetchWalk_components (s : Option Int) (m : Option Nat) (rep : String)
    (pages : List PRPage) (st : FetchState) :
    (((fetchWalk s m rep pages st).activity, (fetchWalk s m rep pages st).details) =
        (walkProcessed s m pages st.prsProcessed).foldl
          (fun p pr => processPR pr (effectiveSince s m) rep p)
          (st.activity, st.details)) ∧
      (fetchWalk s m rep pages st).prsProcessed =
        st.prsProcessed + (walkProcessed s m pages st.prsProcessed).length := by
  induction pages generalizing st with
  | nil => exact ⟨rfl, by simp [fetchWalk, walkProcessed]⟩
  | cons page rest ih =>
    rw [fetchWalk, walkProcessed]
    cases hrep : page.repository with
    | none => exact ⟨rfl, by simp⟩
    | some pd =>
      dsimp only
      rw [processPageNodes_eq]
      dsimp only
      have hpp : ({ st with pagesFetched := st.pagesFetched + 1 } : FetchState).prsProcessed
          = st.prsProcessed := rfl
      rw [hpp]
      by_cases hflag : (takeProcess s m st.prsProcessed pd.prs).2 = true
      · simp only [hflag, if_true]
        constructor
        · rw [foldl_stepPR_pair]
        · rw [foldl_stepPR_prsProcessed]
      · simp only [Bool.not_eq_true] at hflag
        simp only [hflag, Bool.false_eq_true, if_false]
        by_cases hnext : pd.hasNextPage = true
        · rw [if_pos hnext, if_pos hnext]
          have hrec := ih ((takeProcess s m st.prsProcessed pd.prs).1.foldl
            (stepPR s m rep) { st with pagesFetched := st.pagesFetched + 1 })
          have hpr : ((takeProcess s m st.prsProcessed pd.prs).1.foldl
              (stepPR s m rep) { st with pagesFetched := st.pagesFetched + 1 }).prsProcessed
              = st.prsProcessed + (takeProcess s m st.prsProcessed pd.prs).1.length := by
            rw [foldl_stepPR_prsProcessed]
          rw [hpr] at hrec
          obtain ⟨hrec1, hrec2⟩ := hrec
          constructor
          · rw [hrec1, foldl_stepPR_pair, List.foldl_append]
          · rw [hrec2]
            simp only [List.length_append]
            omega
        · rw [if_neg hnext, if_neg hnext]
          constructor
          · rw [foldl_stepPR_pair]
          · rw [foldl_stepPR_prsProcessed]

theorem takeWhile_length_le {α : Type} (p : α → Bool) (l : List α) :
    (l.takeWhile p).length ≤ l.length := by
  induction l with
  | nil => simp
  | cons x xs ih =>
    rw [List.takeWhile_cons]
    by_cases h : p x = true <;> simp [h] <;> omega

theorem takeWhile_length_eq_iff {α : Type} (p : α → Bool) (l : List α) :
    ((l.takeWhile p).length = l.length) ↔ ∀ x ∈ l, p x = true := by
  induction l with
  | nil => simp
  | cons x xs ih =>
    rw [List.takeWhile_cons]
    by_cases h : p x = true
    · simp [h, ih]
    · simp [h]

theorem takeProcess_since (T : Int) (count : Nat) (prs : List GraphQLPRNode) :
    takeProcess (some T) none count prs =
      (prs.takeWhile (fun pr => !decide (pr.updatedAt < T)),
        prs.any (fun pr => decide (pr.updatedAt < T))) := by
  induction prs generalizing count with
  | nil => rfl
  | cons pr rest ih =>
    rw [takeProcess]
    have h1 : shouldStopMax none count = false := rfl
    have h2 : shouldStopSince none (some T) pr.updatedAt = decide (pr.updatedAt < T) := by
      simp [shouldStopSince, optNatTruthy]
    rw [h1, h2]
    simp only [Bool.false_eq_true, if_false]
    by_cases h : decide (pr.updatedAt < T) = true
    · simp [h, List.takeWhile_cons, List.any_cons]
    · simp only [Bool.not_eq_true] at h
      simp [h, List.takeWhile_cons, List.any_cons, ih (count + 1)]

theorem walkProcessed_since (T : Int) (pages : List PRPage) (count : Nat)
    (hvalid : ∀ p ∈ pages, p.repository.isSome = true)
    (hlinked : ∀ p ∈ pages.dropLast, ∀ pd, p.repository = some pd → pd.hasNextPage = true) :
    walkProcessed (some T) none pages count =
      (pages.map pagePRs).flatten.takeWhile fun pr => !decide (pr.updatedAt < T) := by
  induction pages generalizing count with
  | nil => rfl
  | cons page rest ih =>
    obtain ⟨pd, hpd⟩ := Option.isSome_iff_exists.mp
      (hvalid page (List.mem_cons_self page rest))
    rw [walkProcessed]
    simp only [hpd]
    rw [takeProcess_since]
    simp only [List.map_cons, List.flatten_cons, pagePRs, hpd]
    by_cases hstop : pd.prs.any (fun pr => decide (pr.updatedAt < T)) = true
    · simp only [hstop, if_true]
      rw [List.takeWhile_append, if_neg]
      rw [takeWhile_length_eq_iff]
      intro hall
      obtain ⟨x, hx, hxf⟩ := List.any_eq_true.mp hstop
      have := hall x hx
      rw [hxf] at this
      cases this
    · simp only [Bool.not_eq_true] at hstop
      simp only [hstop, Bool.false_eq_true, if_false]
      have hall : ∀ x ∈ pd.prs, (!decide (x.updatedAt < T)) = true := by
        intro x hx
        have := List.any_eq_false.mp hstop x hx
        simp [this]
      have htw : pd.prs.takeWhile (fun pr => !decide (pr.updatedAt < T)) = pd.prs := by
        rw [List.takeWhile_eq_self_iff]
        exact hall
      rw [List.takeWhile_append_of_pos hall]
      cases hrest : rest with
      | nil =>
        subst hrest
        by_cases hnext : pd.hasNextPage = true <;> simp [hnext, htw, walkProcessed]
      | cons r2 rs =>
        have hnext : pd.hasNextPage = true := by
          apply hlinked page ?_ pd hpd
          rw [hrest]
          simp [List.dropLast]
        rw [if_pos hnext, htw, ← hrest, ih]
        · intro p hp
          apply hvalid
          rw [hrest] at hp ⊢
          exact List.mem_cons_of_mem _ hp
        · intro p hp pd2 hpd2
          apply hlinked p ?_ pd2 hpd2
          rw [hrest] at hp ⊢
          simp [List.dropLast] at hp ⊢
          tauto

theorem fetchWalk_pagesFetched_since (T : Int) (rep : String) (pages : List PRPage)
    (st : FetchState)
    (hvalid : ∀ p ∈ pages, p.repository.isSome = true)
    (hlinked : ∀ p ∈ pages.dropLast, ∀ pd, p.repository = some pd → pd.hasNextPage = true) :
    (fetchWalk (some T) none rep pages st).pagesFetched =
      st.pagesFetched + min pages.length
        ((pages.takeWhile fun p =>
          (pagePRs p).all fun pr => !decide (pr.updatedAt < T)).length + 1) := by
  induction pages generalizing st with
  | nil => simp [fetchWalk]
  | cons page rest ih =>
    obtain ⟨pd, hpd⟩ := Option.isSome_iff_exists.mp
      (hvalid page (List.mem_cons_self page rest))
    rw [fetchWalk]
    simp only [hpd]
    rw [processPageNodes_eq]
    dsimp only
    rw [takeProcess_since]
    have hple : (rest.takeWhile fun p =>
        (pagePRs p).all fun pr => !decide (pr.updatedAt < T)).length ≤ rest.length :=
      takeWhile_length_le _ _
    by_cases hstop : pd.prs.any (fun pr => decide (pr.updatedAt < T)) = true
    · simp only [hstop, if_true]
      rw [foldl_stepPR_pagesFetched]
      have hhead : ((pagePRs page).all fun pr => !decide (pr.updatedAt < T)) = false := by
        rw [pagePRs, hpd]
        obtain ⟨x, hx, hxf⟩ := List.any_eq_true.mp hstop
        rw [List.all_eq_false]
        exact ⟨x, hx, by simp [hxf]⟩
      rw [List.takeWhile_cons, hhead]
      simp only [Bool.false_eq_true, if_false, List.length_nil, List.length_cons]
      omega
    · simp only [Bool.not_eq_true] at hstop
      simp only [hstop, Bool.false_eq_true, if_false]
      have hhead : ((pagePRs page).all fun pr => !decide (pr.updatedAt < T)) = true := by
        rw [pagePRs, hpd, List.all_eq_true]
        intro x hx
        have := List.any_eq_false.mp hstop x hx
        simp [this]
      rw [List.takeWhile_cons, hhead]
      simp only [if_true, List.length_cons]
      by_cases hnext : pd.hasNextPage = true
      · rw [if_pos hnext, ih]
        · rw [foldl_stepPR_pagesFetched]
          show st.pagesFetched + 1 + _ = _
          omega
        · intro p hp
          exact hvalid p (List.mem_cons_of_mem _ hp)
        · intro p hp pd2 hpd2
          apply hlinked p ?_ pd2 hpd2
          cases rest with
          | nil => cases hp
          | cons r2 rs =>
            simp [List.dropLast] at hp ⊢
            tauto
      · cases hrest : rest with
        | nil =>
          subst hrest
          rw [if_neg hnext, foldl_stepPR_pagesFetched]
          simp
        | cons r2 rs =>
          exfalso
          apply hnext
          apply hlinked page ?_ pd hpd
          rw [hrest]
          simp [List.dropLast]

/-! ### Counter invariants: per-login sum characterization of `processPR` -/

theorem get_createEmptyActivity (p : CounterField) (lg : String) :
    p.get (createEmptyActivity lg) = 0 := by
  cases p <;> rfl

theorem get_addRepo (p : CounterField) (rep : String) (a : UserActivity) :
    p.get (addRepo rep a) = p.get a := by
  cases p <;> rfl

theorem get_applyReviewState (p : CounterField) (st : GraphQLReviewState)
    (a : UserActivity) :
    p.get (applyReviewState st a) = p.get a + reviewDelta p st := by
  cases p <;> cases st <;> rfl

theorem get_bumpComment (p : CounterField) (rep : String) (a : UserActivity) :
    p.get (bumpComment rep a) = p.get a + commentDelta p := by
  cases p <;> rfl

theorem sum_map_add {α : Type} (f g : α → Nat) (l : List α) :
    (l.map fun x => f x + g x).sum = (l.map f).sum + (l.map g).sum := by
  induction l with
  | nil => rfl
  | cons a rest ih =>
    simp only [List.map_cons, List.sum_cons, ih]
    omega

theorem sum_map_congr {α : Type} (f g : α → Nat) (l : List α)
    (h : ∀ a ∈ l, f a = g a) : (l.map f).sum = (l.map g).sum := by
  induction l with
  | nil => rfl
  | cons a rest ih =>
    simp only [List.map_cons, List.sum_cons]
    rw [h a (List.mem_cons_self a rest),
      ih (fun x hx => h x (List.mem_cons_of_mem a hx))]

theorem sum_map_zero {α : Type} (f : α → Nat) (l : List α)
    (h : ∀ a ∈ l, f a = 0) : (l.map f).sum = 0 := by
  induction l with
  | nil => rfl
  | cons a rest ih =>
    simp only [List.map_cons, List.sum_cons]
    rw [h a (List.mem_cons_self a rest),
      ih (fun x hx => h x (List.mem_cons_of_mem a hx))]

theorem sum_indicator_filter_filter {α : Type} (p q : α → Bool) (l : List α) :
    ((l.filter p).map fun x => if q x then 1 else 0).sum =
      (l.filter fun a => p a && q a).length := by
  induction l with
  | nil => rfl
  | cons a rest ih =>
    simp only [List.filter_cons]
    by_cases hp : p a = true
    · rw [if_pos hp]
      simp only [List.map_cons, List.sum_cons]
      by_cases hq : q a = true
      · rw [if_pos hq, if_pos (by simp [hp, hq]), List.length_cons, ih]
        omega
      · rw [if_neg hq, if_neg (by simp [hp, Bool.not_eq_true] at hq ⊢; simp [hq]), ih]
        omega
    · rw [if_neg hp, if_neg (by simp [Bool.not_eq_true] at hp ⊢; simp [hp]), ih]

theorem sumForLogin_getOrCreateUpdate (f : UserActivity → Nat) (δ : Nat)
    (upd : UserActivity → UserActivity)
    (hupd : ∀ a, f (upd a) = f a + δ)
    (hlog : ∀ a, (upd a).login = a.login)
    (hemp : ∀ l, f (createEmptyActivity l) = 0)
    (m : ActivityMap) (lg lg' : String) :
    sumForLogin f lg' (getOrCreateUpdate m lg upd) =
      sumForLogin f lg' m + (if lg == lg' then δ else 0) := by
  induction m with
  | nil =>
    rw [getOrCreateUpdate, sumForLogin_cons, hlog, hupd, hemp]
    simp [sumForLogin, createEmptyActivity]
  | cons a rest ih =>
    by_cases ha : a.login = lg
    · rw [getOrCreateUpdate, if_pos ha, sumForLogin_cons, sumForLogin_cons,
        hlog, hupd, ha]
      by_cases h : (lg == lg') = true
      · rw [if_pos h, if_pos h, if_pos h]
        omega
      · rw [if_neg h, if_neg h, if_neg h]
        omega
    · rw [getOrCreateUpdate, if_neg ha, sumForLogin_cons, sumForLogin_cons, ih]
      omega

theorem processReview_sumForLogin (p : CounterField) (pa : Option String)
    (s : Option Int) (rep : String) (m : ActivityMap) (r : GraphQLReviewNode)
    (lg' : String) :
    sumForLogin p.get lg' (processReview pa s rep m r) =
      sumForLogin p.get lg' m +
        (if reviewSurvives pa s r && (r.author == some lg') then
          reviewDelta p r.state else 0) := by
  by_cases hs : reviewSurvives pa s r = true
  · cases ha : r.author with
    | none => rw [reviewSurvives, ha] at hs; simp at hs
    | some lg =>
      rw [processReview_survives pa s rep m r lg ha hs]
      rw [sumForLogin_getOrCreateUpdate p.get (reviewDelta p r.state)
        (fun a => applyReviewState r.state (addRepo rep a))
        (fun a => by rw [get_applyReviewState, get_addRepo])
        (fun a => applyReviewState_login r.state (addRepo rep a))
        (fun l => get_createEmptyActivity p l) m lg lg']
      rw [hs]
      simp
  · rw [processReview_not_survives pa s rep m r (by simpa using hs)]
    simp only [Bool.not_eq_true] at hs
    rw [hs]
    simp

theorem processComment_fst_sumForLogin (p : CounterField) (pr : GraphQLPRNode)
    (pa : Option String) (s : Option Int) (rep : String)
    (st : ActivityMap × List ReviewCommentDetail) (c : GraphQLReviewCommentNode)
    (lg' : String) :
    sumForLogin p.get lg' (processComment pr pa s rep st c).1 =
      sumForLogin p.get lg' st.1 +
        (if commentSurvives pa s c && (c.author == some lg') then
          commentDelta p else 0) := by
  by_cases hs : commentSurvives pa s c = true
  · cases ha : c.author with
    | none => rw [commentSurvives, ha] at hs; simp at hs
    | some lg =>
      rw [processComment_survives pr pa s rep st c lg ha hs]
      rw [show (getOrCreateUpdate st.1 lg (bumpComment rep),
          st.2 ++ [mkDetail pr rep lg c]).1 =
        getOrCreateUpdate st.1 lg (bumpComment rep) from rfl]
      rw [sumForLogin_getOrCreateUpdate p.get (commentDelta p) (bumpComment rep)
        (fun a => get_bumpComment p rep a) (fun a => rfl)
        (fun l => get_createEmptyActivity p l) st.1 lg lg']
      rw [hs]
      simp
  · rw [processComment_not_survives pr pa s rep st c (by simpa using hs)]
    simp only [Bool.not_eq_true] at hs
    rw [hs]
    simp

theorem foldl_processReview_sumForLogin (p : CounterField)
    (reviews : List GraphQLReviewNode) (pa : Option String) (s : Option Int)
    (rep : String) (m : ActivityMap) (lg' : String) :
    sumForLogin p.get lg' (reviews.foldl (processReview pa s rep) m) =
      sumForLogin p.get lg' m +
        ((reviews.filter fun r => reviewSurvives pa s r && (r.author == some lg')).map
          (fun r => reviewDelta p r.state)).sum := by
  induction reviews generalizing m with
  | nil => simp
  | cons r rest ih =>
    rw [List.foldl_cons, ih, processReview_sumForLogin, List.filter_cons]
    by_cases h : (reviewSurvives pa s r && (r.author == some lg')) = true
    · rw [if_pos h, if_pos h]
      simp only [List.map_cons, List.sum_cons]
      omega
    · rw [if_neg h, if_neg h]
      omega

theorem foldl_processComment_fst_sumForLogin (p : CounterField)
    (comments : List GraphQLReviewCommentNode) (pr : GraphQLPRNode)
    (pa : Option String) (s : Option Int) (rep : String)
    (st : ActivityMap × List ReviewCommentDetail) (lg' : String) :
    sumForLogin p.get lg' (comments.foldl (processComment pr pa s rep) st).1 =
      sumForLogin p.get lg' st.1 +
        commentDelta p *
          (comments.filter fun c =>
            commentSurvives pa s c && (c.author == some lg')).length := by
  induction comments generalizing st with
  | nil => simp
  | cons c rest ih =>
    rw [List.foldl_cons, ih, processComment_fst_sumForLogin, List.filter_cons]
    by_cases h : (commentSurvives pa s c && (c.author == some lg')) = true
    · rw [if_pos h, if_pos h, List.length_cons, Nat.mul_add, Nat.mul_one]
      omega
    · rw [if_neg h, if_neg h]
      omega

theorem foldl_threads_fst_sumForLogin (p : CounterField)
    (threads : List GraphQLThreadNode) (pr : GraphQLPRNode) (pa : Option String)
    (s : Option Int) (rep : String) (st : ActivityMap × List ReviewCommentDetail)
    (lg' : String) :
    sumForLogin p.get lg' ((threads.foldl
        (fun st2 th => th.comments.foldl (processComment pr pa s rep) st2) st).1) =
      sumForLogin p.get lg' st.1 +
        commentDelta p *
          (threads.map fun th =>
            (th.comments.filter fun c =>
              commentSurvives pa s c && (c.author == some lg')).length).sum := by
  induction threads generalizing st with
  | nil => simp
  | cons th rest ih =>
    rw [List.foldl_cons, ih, foldl_processComment_fst_sumForLogin]
    simp only [List.map_cons, List.sum_cons]
    rw [Nat.mul_add]
    omega

theorem processPR_sumForLogin (p : CounterField) (pr : GraphQLPRNode) (s : Option Int)
    (rep : String) (st : ActivityMap × List ReviewCommentDetail) (lg' : String) :
    sumForLogin p.get lg' (processPR pr s rep st).1 =
      sumForLogin p.get lg' st.1 + reviewContrib p pr s lg' +
        commentDelta p * commentCountInPR s lg' pr := by
  simp only [processPR]
  rw [foldl_threads_fst_sumForLogin]
  rw [show ((pr.reviews.foldl (processReview (pr.author.map jsToLower) s rep) st.1,
      st.2) : ActivityMap × List ReviewCommentDetail).1 =
    pr.reviews.foldl (processReview (pr.author.map jsToLower) s rep) st.1 from rfl]
  rw [foldl_processReview_sumForLogin, reviewContrib, commentCountInPR]

theorem foldl_processPR_sumForLogin (p : CounterField) (prs : List GraphQLPRNode)
    (s : Option Int) (rep : String) (st : ActivityMap × List ReviewCommentDetail)
    (lg' : String) :
    sumForLogin p.get lg' (prs.foldl (fun q pr => processPR pr s rep q) st).1 =
      sumForLogin p.get lg' st.1 +
        (prs.map fun pr =>
          reviewContrib p pr s lg' +
            commentDelta p * commentCountInPR s lg' pr).sum := by
  induction prs generalizing st with
  | nil => simp
  | cons pr rest ih =>
    rw [List.foldl_cons, ih, processPR_sumForLogin]
    simp only [List.map_cons, List.sum_cons]
    omega

theorem nodup_logins_getOrCreateUpdate (m : ActivityMap) (lg : String)
    (f : UserActivity → UserActivity) (hf : ∀ a, (f a).login = a.login)
    (h : (m.map (·.login)).Nodup) :
    ((getOrCreateUpdate m lg f).map (·.login)).Nodup := by
  induction m with
  | nil => simp [getOrCreateUpdate]
  | cons a rest ih =>
    simp only [List.map_cons, List.nodup_cons] at h
    by_cases ha : a.login = lg
    · rw [getOrCreateUpdate, if_pos ha]
      simp only [List.map_cons, List.nodup_cons, hf]
      exact h
    · rw [getOrCreateUpdate, if_neg ha]
      simp only [List.map_cons, List.nodup_cons]
      refine ⟨?_, ih h.2⟩
      intro hmem
      rw [mem_logins_getOrCreateUpdate rest lg f hf] at hmem
      rcases hmem with hm | hm
      · exact h.1 hm
      · exact ha hm

theorem nodup_logins_processReview (pa : Option String) (s : Option Int) (rep : String)
    (m : ActivityMap) (r : GraphQLReviewNode) (h : (m.map (·.login)).Nodup) :
    ((processReview pa s rep m r).map (·.login)).Nodup := by
  by_cases hs : reviewSurvives pa s r = true
  · cases ha : r.author with
    | none => rw [reviewSurvives, ha] at hs; simp at hs
    | some lg =>
      rw [processReview_survives pa s rep m r lg ha hs]
      exact nodup_logins_getOrCreateUpdate m lg _
        (fun a => applyReviewState_login r.state (addRepo rep a)) h
  · rw [processReview_not_survives pa s rep m r (by simpa using hs)]
    exact h

theorem nodup_logins_processComment (pr : GraphQLPRNode) (pa : Option String)
    (s : Option Int) (rep : String) (st : ActivityMap × List ReviewCommentDetail)
    (c : GraphQLReviewCommentNode) (h : (st.1.map (·.login)).Nodup) :
    ((processComment pr pa s rep st c).1.map (·.login)).Nodup := by
  by_cases hs : commentSurvives pa s c = true
  · cases ha : c.author with
    | none => rw [commentSurvives, ha] at hs; simp at hs
    | some lg =>
      rw [processComment_survives pr pa s rep st c lg ha hs]
      exact nodup_logins_getOrCreateUpdate st.1 lg _ (fun a => rfl) h
  · rw [processComment_not_survives pr pa s rep st c (by simpa using hs)]
    exact h

theorem nodup_logins_foldl_processReview (reviews : List GraphQLReviewNode)
    (pa : Option String) (s : Option Int) (rep : String) (m : ActivityMap)
    (h : (m.map (·.login)).Nodup) :
    ((reviews.foldl (processReview pa s rep) m).map (·.login)).Nodup := by
  induction reviews generalizing m with
  | nil => exact h
  | cons r rest ih =>
    rw [List.foldl_cons]
    exact ih _ (nodup_logins_processReview pa s rep m r h)

theorem nodup_logins_foldl_processComment (comments : List GraphQLReviewCommentNode)
    (pr : GraphQLPRNode) (pa : Option String) (s : Option Int) (rep : String)
    (st : ActivityMap × List ReviewCommentDetail) (h : (st.1.map (·.login)).Nodup) :
    ((comments.foldl (processComment pr pa s rep) st).1.map (·.login)).Nodup := by
  induction comments generalizing st with
  | nil => exact h
  | cons c rest ih =>
    rw [List.foldl_cons]
    exact ih _ (nodup_logins_processComment pr pa s rep st c h)

theorem nodup_logins_foldl_threads (threads : List GraphQLThreadNode)
    (pr : GraphQLPRNode) (pa : Option String) (s : Option Int) (rep : String)
    (st : ActivityMap × List ReviewCommentDetail) (h : (st.1.map (·.login)).Nodup) :
    ((threads.foldl (fun st2 th => th.comments.foldl (processComment pr pa s rep) st2)
      st).1.map (·.login)).Nodup := by
  induction threads generalizing st with
  | nil => exact h
  | cons th rest ih =>
    rw [List.foldl_cons]
    exact ih _ (nodup_logins_foldl_processComment th.comments pr pa s rep st h)

theorem nodup_logins_processPR (pr : GraphQLPRNode) (s : Option Int) (rep : String)
    (st : ActivityMap × List ReviewCommentDetail) (h : (st.1.map (·.login)).Nodup) :
    ((processPR pr s rep st).1.map (·.login)).Nodup := by
  simp only [processPR]
  exact nodup_logins_foldl_threads pr.reviewThreads pr (pr.author.map jsToLower) s rep
    (pr.reviews.foldl (processReview (pr.author.map jsToLower) s rep) st.1, st.2)
    (nodup_logins_foldl_processReview pr.reviews (pr.author.map jsToLower) s rep st.1 h)

theorem nodup_logins_foldl_processPR (prs : List GraphQLPRNode) (s : Option Int)
    (rep : String) (st : ActivityMap × List ReviewCommentDetail)
    (h : (st.1.map (·.login)).Nodup) :
    ((prs.foldl (fun q pr => processPR pr s rep q) st).1.map (·.login)).Nodup := by
  induction prs generalizing st with
  | nil => exact h
  | cons pr rest ih =>
    rw [List.foldl_cons]
    exact ih _ (nodup_logins_processPR pr s rep st h)

theorem reviewDelta_totalActivity (st : GraphQLReviewState) :
    reviewDelta CounterField.totalActivity st = 0 := by
  cases st <;> rfl

theorem reviewDelta_reviewComments (st : GraphQLReviewState) :
    reviewDelta CounterField.reviewComments st = 0 := by
  cases st <;> rfl

theorem reviewDelta_reviewsGiven_split (st : GraphQLReviewState) :
    reviewDelta CounterField.reviewsGiven st =
      reviewDelta CounterField.approvals st +
        reviewDelta CounterField.changesRequested st +
        (if st == GraphQLReviewState.commented then 1 else 0) := by
  cases st <;> rfl

theorem commentDelta_totalActivity : commentDelta CounterField.totalActivity = 1 := rfl

theorem commentDelta_reviewComments : commentDelta CounterField.reviewComments = 1 := rfl

theorem commentDelta_reviewsGiven : commentDelta CounterField.reviewsGiven = 0 := rfl

theorem commentDelta_approvals : commentDelta CounterField.approvals = 0 := rfl

theorem commentDelta_changesRequested :
    commentDelta CounterField.changesRequested = 0 := rfl

theorem reviewContrib_totalActivity (pr : GraphQLPRNode) (s : Option Int) (lg : String) :
    reviewContrib CounterField.totalActivity pr s lg = 0 :=
  sum_map_zero _ _ (fun r _ => reviewDelta_totalActivity r.state)

theorem reviewContrib_reviewComments (pr : GraphQLPRNode) (s : Option Int)
    (lg : String) :
    reviewContrib CounterField.reviewComments pr s lg = 0 :=
  sum_map_zero _ _ (fun r _ => reviewDelta_reviewComments r.state)

theorem reviewContrib_split (pr : GraphQLPRNode) (s : Option Int) (lg : String) :
    reviewContrib CounterField.reviewsGiven pr s lg =
      reviewContrib CounterField.approvals pr s lg +
        reviewContrib CounterField.changesRequested pr s lg +
        commentedInPR s lg pr := by
  rw [reviewContrib, reviewContrib, reviewContrib, commentedInPR]
  rw [sum_map_congr (fun r : GraphQLReviewNode => reviewDelta CounterField.reviewsGiven r.state)
    (fun r : GraphQLReviewNode => reviewDelta CounterField.approvals r.state +
      reviewDelta CounterField.changesRequested r.state +
      (if r.state == GraphQLReviewState.commented then 1 else 0)) _
    (fun r _ => reviewDelta_reviewsGiven_split r.state)]
  rw [sum_map_add (fun r : GraphQLReviewNode =>
      reviewDelta CounterField.approvals r.state +
        reviewDelta CounterField.changesRequested r.state)
    (fun r => if r.state == GraphQLReviewState.commented then 1 else 0)]
  rw [sum_map_add (fun r : GraphQLReviewNode => reviewDelta CounterField.approvals r.state)
    (fun r => reviewDelta CounterField.changesRequested r.state)]
  rw [sum_indicator_filter_filter]

theorem sumForLogin_congr (f g : UserActivity → Nat) (lg : String)
    (m : List UserActivity) (h : ∀ x ∈ m, f x = g x) :
    sumForLogin f lg m = sumForLogin g lg m := by
  rw [sumForLogin, sumForLogin]
  exact sum_map_congr f g _ (fun x hx => h x (List.mem_of_mem_filter hx))

theorem sumForLogin_add (f g : UserActivity → Nat) (lg : String)
    (m : List UserActivity) :
    sumForLogin (fun x => f x + g x) lg m =
      sumForLogin f lg m + sumForLogin g lg m := by
  rw [sumForLogin, sumForLogin, sumForLogin]
  exact sum_map_add f g _

theorem le_sumForLogin (f : UserActivity → Nat) (m : List UserActivity)
    (e : UserActivity) (he : e ∈ m) : f e ≤ sumForLogin f e.login m := by
  rw [sumForLogin]
  exact List.single_le_sum (fun x _ => Nat.zero_le x) _
    (List.mem_map_of_mem f (List.mem_filter.mpr ⟨he, by simp⟩))

theorem MapLe_refl (m : ActivityMap) : MapLe m m :=
  fun e he => ⟨e, he, rfl, fun _ => le_refl _⟩

theorem MapLe_trans {m1 m2 m3 : ActivityMap} (h1 : MapLe m1 m2) (h2 : MapLe m2 m3) :
    MapLe m1 m3 := by
  intro e he
  obtain ⟨e2, he2, hl2, hp2⟩ := h1 e he
  obtain ⟨e3, he3, hl3, hp3⟩ := h2 e2 he2
  exact ⟨e3, he3, hl3.trans hl2, fun p => (hp2 p).trans (hp3 p)⟩

theorem getOrCreateUpdate_mono (m : ActivityMap) (lg : String)
    (f : UserActivity → UserActivity) (hlog : ∀ a, (f a).login = a.login)
    (hmono : ∀ a (p : CounterField), p.get a ≤ p.get (f a)) :
    MapLe m (getOrCreateUpdate m lg f) := by
  induction m with
  | nil => intro e he; cases he
  | cons a rest ih =>
    intro e he
    by_cases ha : a.login = lg
    · rw [getOrCreateUpdate, if_pos ha]
      rcases List.mem_cons.mp he with rfl | he2
      · exact ⟨f e, List.mem_cons_self _ _, hlog e, hmono e⟩
      · exact ⟨e, List.mem_cons_of_mem _ he2, rfl, fun p => le_refl _⟩
    · rw [getOrCreateUpdate, if_neg ha]
      rcases List.mem_cons.mp he with rfl | he2
      · exact ⟨e, List.mem_cons_self _ _, rfl, fun p => le_refl _⟩
      · obtain ⟨e2, he2m, hl2, hp2⟩ := ih e he2
        exact ⟨e2, List.mem_cons_of_mem _ he2m, hl2, hp2⟩

theorem processReview_mono (pa : Option String) (s : Option Int) (rep : String)
    (m : ActivityMap) (r : GraphQLReviewNode) :
    MapLe m (processReview pa s rep m r) := by
  by_cases hs : reviewSurvives pa s r = true
  · cases ha : r.author with
    | none => rw [reviewSurvives, ha] at hs; simp at hs
    | some lg =>
      rw [processReview_survives pa s rep m r lg ha hs]
      exact getOrCreateUpdate_mono m lg _
        (fun a => applyReviewState_login r.state (addRepo rep a))
        (fun a p => by rw [get_applyReviewState, get_addRepo]; omega)
  · rw [processReview_not_survives pa s rep m r (by simpa using hs)]
    exact MapLe_refl m

theorem processComment_fst_mono (pr : GraphQLPRNode) (pa : Option String)
    (s : Option Int) (rep : String) (st : ActivityMap × List ReviewCommentDetail)
    (c : GraphQLReviewCommentNode) :
    MapLe st.1 (processComment pr pa s rep st c).1 := by
  by_cases hs : commentSurvives pa s c = true
  · cases ha : c.author with
    | none => rw [commentSurvives, ha] at hs; simp at hs
    | some lg =>
      rw [processComment_survives pr pa s rep st c lg ha hs]
      exact getOrCreateUpdate_mono st.1 lg _ (fun a => rfl)
        (fun a p => by rw [get_bumpComment]; omega)
  · rw [processComment_not_survives pr pa s rep st c (by simpa using hs)]
    exact MapLe_refl st.1

theorem foldl_processReview_mono (reviews : List GraphQLReviewNode) (pa : Option String)
    (s : Option Int) (rep : String) (m : ActivityMap) :
    MapLe m (reviews.foldl (processReview pa s rep) m) := by
  induction reviews generalizing m with
  | nil => exact MapLe_refl m
  | cons r rest ih =>
    rw [List.foldl_cons]
    exact MapLe_trans (processReview_mono pa s rep m r) (ih _)

theorem foldl_processComment_fst_mono (comments : List GraphQLReviewCommentNode)
    (pr : GraphQLPRNode) (pa : Option String) (s : Option Int) (rep : String)
    (st : ActivityMap × List ReviewCommentDetail) :
    MapLe st.1 (comments.foldl (processComment pr pa s rep) st).1 := by
  induction comments generalizing st with
  | nil => exact MapLe_refl st.1
  | cons c rest ih =>
    rw [List.foldl_cons]
    exact MapLe_trans (processComment_fst_mono pr pa s rep st c) (ih _)

theorem foldl_threads_fst_mono (threads : List GraphQLThreadNode) (pr : GraphQLPRNode)
    (pa : Option String) (s : Option Int) (rep : String)
    (st : ActivityMap × List ReviewCommentDetail) :
    MapLe st.1 ((threads.foldl
      (fun st2 th => th.comments.foldl (processComment pr pa s rep) st2) st).1) := by
  induction threads generalizing st with
  | nil => exact MapLe_refl st.1
  | cons th rest ih =>
    rw [List.foldl_cons]
    exact MapLe_trans (foldl_processComment_fst_mono th.comments pr pa s rep st) (ih _)

theorem processPR_mono (pr : GraphQLPRNode) (s : Option Int) (rep : String)
    (st : ActivityMap × List ReviewCommentDetail) :
    MapLe st.1 (processPR pr s rep st).1 := by
  simp only [processPR]
  exact MapLe_trans
    (foldl_processReview_mono pr.reviews (pr.author.map jsToLower) s rep st.1)
    (foldl_threads_fst_mono pr.reviewThreads pr (pr.author.map jsToLower) s rep
      (pr.reviews.foldl (processReview (pr.author.map jsToLower) s rep) st.1, st.2))

theorem aggregateActivity_mono (ms : List (List UserActivity)) :
    MapLe ms.flatten (aggregateActivity ms) := by
  intro e he
  have hlogin : e.login ∈ ((ms.flatten.foldl insertActivity []).map (·.login)) := by
    rw [foldl_insertActivity_logins]
    exact Or.inr ⟨e, he, rfl⟩
  rw [List.mem_map] at hlogin
  obtain ⟨e2, he2, hl2⟩ := hlogin
  have hperm : List.Perm (aggregateActivity ms) (ms.flatten.foldl insertActivity []) :=
    List.mergeSort_perm _ _
  refine ⟨e2, hperm.mem_iff.mpr he2, hl2, fun p => ?_⟩
  have hnodup : ((ms.flatten.foldl insertActivity []).map (·.login)).Nodup :=
    foldl_insertActivity_nodup ms.flatten [] (by simp)
  have h1 : p.get e2 = sumForLogin p.get e2.login (ms.flatten.foldl insertActivity []) :=
    entry_eq_sumForLogin p.get _ hnodup e2 he2
  rw [h1, foldl_insertActivity_sumForLogin p.get (fun x y => addActivity_get p x y), hl2]
  have h2 := le_sumForLogin p.get ms.flatten e he
  have h3 : sumForLogin p.get e.login ([] : List UserActivity) = 0 := rfl
  omega

/-! ## Claim theorems -/

/-- **C1.** If the analysis call fails with a token-limit error at every
trial limit, the controller loop of `extractCommentsAndBuildPrompt`
terminates after at most `currentLimit + 1` LLM calls (hence finitely
many) and rethrows the token-limit error to the caller, both from an
arbitrary loop state and from the loop entry. -/
theorem controller_always_tokenLimit_rethrows
    (oracle : List ReviewerGroup → AnalyzeOutcome)
    (hfail : ∀ gs, oracle gs = .tokenLimit) :
    (∀ (groups : List ReviewerGroup) (l max : Nat),
        (runControllerAux oracle groups l max).1 = .error .tokenLimit ∧
          (runControllerAux oracle groups l max).2 ≤ l + 1) ∧
      (∀ (maxComments0 : Option Nat) (groups0 : List ReviewerGroup),
        (runController oracle maxComments0 groups0).1 = .error .tokenLimit) := by
  have main : ∀ (groups : List ReviewerGroup) (l max : Nat),
      (runControllerAux oracle groups l max).1 = .error .tokenLimit ∧
        (runControllerAux oracle groups l max).2 ≤ l + 1 := by
    intro groups l
    induction l using Nat.strong_induction_on with
    | _ l ih =>
      intro max
      rw [runControllerAux_tokenLimit oracle groups l max (hfail _)]
      by_cases h : (minComments + l) / 2 < minComments ∨ (minComments + l) / 2 = l
      · rw [if_pos h]
        exact ⟨rfl, by omega⟩
      · rw [if_neg h]
        have hl1 : (minComments + l) / 2 < l := by
          simp only [minComments] at h ⊢
          omega
        obtain ⟨h1, h2⟩ := ih _ hl1 l
        exact ⟨h1, by omega⟩
  refine ⟨main, fun maxComments0 groups0 => ?_⟩
  rw [runController.eq_def]
  exact (main _ _ _).1

/-- **C1 (witness).** The always-failing oracle at loop state
`(10, 10)`: the loop rethrows the token-limit error within 11 calls. -/
theorem controller_always_tokenLimit_rethrows_witness :
    (runControllerAux alwaysTokenLimit [] 10 10).1 = .error .tokenLimit ∧
      (runControllerAux alwaysTokenLimit [] 10 10).2 ≤ 11 :=
  (controller_always_tokenLimit_rethrows alwaysTokenLimit (fun _ => rfl)).1 [] 10 10

/-- **C6.** On a token-limit failure at trial limit `l` the controller
sets the upper bound to `l` and the new trial limit to
`⌊(1 + l) / 2⌋`, re-deriving truncated groups at that limit (the
recursive call re-enters the loop, whose `groupsToAnalyze` re-truncates);
it aborts by rethrowing the token-limit error exactly when the new trial
limit is not strictly less than the new upper bound or falls below the
floor; and along the whole loop the `currentMaxComments` component of the
visited states is monotonically non-increasing. -/
theorem controller_bisection_step (oracle : List ReviewerGroup → AnalyzeOutcome)
    (groups : List ReviewerGroup) (l max : Nat)
    (hf : oracle (groupsToAnalyze groups l) = .tokenLimit) (hlm : l ≤ max) :
    (runControllerAux oracle groups l max =
        if ¬((minComments + l) / 2 < l) ∨ (minComments + l) / 2 < minComments
        then (.error .tokenLimit, 1)
        else ((runControllerAux oracle groups ((minComments + l) / 2) l).1,
              (runControllerAux oracle groups ((minComments + l) / 2) l).2 + 1)) ∧
      List.Chain' (fun a b : Nat × Nat => b.2 ≤ a.2)
        (controllerTrace oracle groups l max) ∧
      (controllerTrace oracle groups l max).head? = some (l, max) := by
  have hcond : ((minComments + l) / 2 < minComments ∨ (minComments + l) / 2 = l)
      ↔ (¬((minComments + l) / 2 < l) ∨ (minComments + l) / 2 < minComments) := by
    simp only [minComments]
    omega
  refine ⟨?_, controllerTrace_chain oracle groups l max hlm,
    controllerTrace_head oracle groups l max⟩
  rw [runControllerAux_tokenLimit oracle groups l max hf]
  by_cases h : (minComments + l) / 2 < minComments ∨ (minComments + l) / 2 = l
  · rw [if_pos h, if_pos (hcond.mp h)]
  · rw [if_neg h, if_neg (fun hc => h (hcond.mpr hc))]

/-- **C6 (witness).** The bisection step at the concrete failing state
`(5, 5)` with the always-failing oracle. -/
theorem controller_bisection_step_witness :
    (runControllerAux alwaysTokenLimit [] 5 5 =
        if ¬((minComments + 5) / 2 < 5) ∨ (minComments + 5) / 2 < minComments
        then (.error .tokenLimit, 1)
        else ((runControllerAux alwaysTokenLimit [] ((minComments + 5) / 2) 5).1,
              (runControllerAux alwaysTokenLimit [] ((minComments + 5) / 2) 5).2 + 1)) ∧
      List.Chain' (fun a b : Nat × Nat => b.2 ≤ a.2)
        (controllerTrace alwaysTokenLimit [] 5 5) ∧
      (controllerTrace alwaysTokenLimit [] 5 5).head? = some (5, 5) :=
  controller_bisection_step alwaysTokenLimit [] 5 5 rfl (Nat.le_refl 5)

/-- **C2 (counterexample).** The claim says that after the 3rd failed
attempt on a transient error the function throws a distinguished
"service temporarily unavailable" error instead of the raw transport
error.  With a client that times out on every attempt, the source retries
three times (sleeping 2000, 4000, 8000 ms) and then rethrows the raw
timeout error itself: the distinguished message is produced only for
HTML server-error-page responses. -/
theorem executeWithRetry_timeout_rethrows_raw :
    (executeWithRetry timeoutClient).1 = .error ⟨"timeout", true⟩ ∧
      (executeWithRetry timeoutClient).2 = [2000, 4000, 8000] ∧
      serverErrorAfterRetries ≠ ⟨"timeout", true⟩ := by
  refine ⟨?_, ?_, by decide⟩ <;>
  · rw [executeWithRetry,
      ewr_step_retry 0 (by decide) rfl (by decide),
      ewr_step_retry 1 (by decide) rfl (by decide),
      ewr_step_retry 2 (by decide) rfl (by decide),
      ewr_exhausted 3 (by decide), if_neg (by decide)]
    try decide

/-- **C2 (amended).** Errors classified transient (an `Error` instance
whose message has a timeout substring or looks like an HTML server error
page) are retried with delay `INITIAL_RETRY_DELAY_MS * 2 ^ attempt`, up to
exactly 3 attempts; after the 3rd failed attempt the function throws the
distinguished server-error message when the last error was an HTML error
page and otherwise rethrows the last raw transport error; an error not
classified transient is thrown immediately with no retry and no delay,
and a first-attempt success is returned as-is. -/
theorem executeWithRetry_spec {α : Type} (client : Nat → Except JsError α) :
    (∀ v, client 0 = .ok v → executeWithRetry client = (.ok v, [])) ∧
      (∀ e, client 0 = .error e → (e.isError && isRetryableError e.message) = false →
        executeWithRetry client = (.error e, [])) ∧
      (∀ e₀ e₁ e₂, client 0 = .error e₀ → client 1 = .error e₁ → client 2 = .error e₂ →
        (e₀.isError && isRetryableError e₀.message) = true →
        (e₁.isError && isRetryableError e₁.message) = true →
        (e₂.isError && isRetryableError e₂.message) = true →
        executeWithRetry client =
          ((if isHtmlErrorResponse e₂.message then .error serverErrorAfterRetries
              else .error e₂),
            [INITIAL_RETRY_DELAY_MS * 2 ^ 0, INITIAL_RETRY_DELAY_MS * 2 ^ 1,
              INITIAL_RETRY_DELAY_MS * 2 ^ 2])) := by
  refine ⟨fun v h0 => ?_, fun e h0 hr => ?_, fun e₀ e₁ e₂ h0 h1 h2 r0 r1 r2 => ?_⟩
  · rw [executeWithRetry, ewr_step_ok 0 (by decide) h0]
  · rw [executeWithRetry, ewr_step_raise 0 (by decide) h0 hr]
  · rw [executeWithRetry, ewr_step_retry 0 (by decide) h0 r0,
      ewr_step_retry 1 (by decide) h1 r1, ewr_step_retry 2 (by decide) h2 r2,
      ewr_exhausted 3 (by decide)]
    rfl

/-- **C2 (witness).** The amended theorem at two concrete clients: a
non-transient first-attempt failure propagates immediately with no delays,
and an always-HTML-error client is retried three times and escalated to
the distinguished server-error message. -/
theorem executeWithRetry_spec_witness :
    executeWithRetry authFailClient = (.error ⟨"Bad credentials", true⟩, []) ∧
      executeWithRetry htmlClient = (.error serverErrorAfterRetries, [2000, 4000, 8000]) := by
  constructor
  · exact (executeWithRetry_spec authFailClient).2.1 _ rfl (by decide)
  · have h := (executeWithRetry_spec htmlClient).2.2 ⟨"<html><body>503</body></html>", true⟩
      ⟨"<html><body>503</body></html>", true⟩ ⟨"<html><body>503</body></html>", true⟩
      rfl rfl rfl (by decide) (by decide) (by decide)
    rw [h, if_pos (by decide)]
    norm_num [INITIAL_RETRY_DELAY_MS]

/-- **C4.** In since-mode (`maxPRs` unset, `since` set), over a valid,
well-linked, descending-by-`updatedAt` page sequence,
`fetchReviewActivity` processes exactly the pull requests strictly before
the first one older than the boundary: its activity map and detail list
are the fold of `processPR` over that prefix, its processed count is the
prefix length, every processed pull request is at-or-after the boundary,
and no page beyond the one containing the first old pull request is
fetched. -/
theorem fetchReviewActivity_since_stop (pages : List PRPage) (T : Int) (rep : String)
    (hvalid : ∀ p ∈ pages, p.repository.isSome = true)
    (hlinked : ∀ p ∈ pages.dropLast, ∀ pd, p.repository = some pd → pd.hasNextPage = true)
    (hdesc : List.Pairwise (fun a b : GraphQLPRNode => b.updatedAt ≤ a.updatedAt)
      ((pages.map pagePRs).flatten)) :
    ((fetchReviewActivity pages (some T) none rep).activity,
        (fetchReviewActivity pages (some T) none rep).details) =
      ((pages.map pagePRs).flatten.takeWhile fun pr => !decide (pr.updatedAt < T)).foldl
        (fun p pr => processPR pr (some T) rep p) ([], []) ∧
      (fetchReviewActivity pages (some T) none rep).prsProcessed =
        ((pages.map pagePRs).flatten.takeWhile fun pr => !decide (pr.updatedAt < T)).length ∧
      (∀ pr ∈ (pages.map pagePRs).flatten.takeWhile fun pr => !decide (pr.updatedAt < T),
        T ≤ pr.updatedAt) ∧
      (fetchReviewActivity pages (some T) none rep).pagesFetched =
        min pages.length
          ((pages.takeWhile fun p =>
            (pagePRs p).all fun pr => !decide (pr.updatedAt < T)).length + 1) := by
  have _hdesc := hdesc
  have hcomp := fetchWalk_components (some T) none rep pages initFetchState
  have hwp := walkProcessed_since T pages 0 hvalid hlinked
  have heff : effectiveSince (some T) none = some T := rfl
  obtain ⟨hc1, hc2⟩ := hcomp
  refine ⟨?_, ?_, ?_, ?_⟩
  · rw [fetchReviewActivity, hc1, heff]
    rw [show initFetchState.prsProcessed = 0 from rfl, hwp]
    rfl
  · rw [fetchReviewActivity, hc2]
    rw [show initFetchState.prsProcessed = 0 from rfl, hwp]
    omega
  · intro pr hpr
    have h1 := List.mem_takeWhile_imp hpr
    simp only [Bool.not_eq_true', decide_eq_false_iff_not, not_lt] at h1
    exact h1
  · rw [fetchReviewActivity, fetchWalk_pagesFetched_since T rep pages initFetchState
      hvalid hlinked]
    show 0 + _ = _
    omega

/-- **C4 (witness).** The spec's example: a correctly descending page
`[T+10, T+5, T-1]` with `T = 0` stops the walk before the `T-1` pull
request — exactly two pull requests are processed. -/
theorem fetchReviewActivity_since_stop_witness :
    (fetchReviewActivity wPages (some 0) none "repoA").prsProcessed =
        ((wPages.map pagePRs).flatten.takeWhile fun pr => !decide (pr.updatedAt < 0)).length ∧
      ((wPages.map pagePRs).flatten.takeWhile fun pr => !decide (pr.updatedAt < 0)).length
        = 2 := by
  refine ⟨(fetchReviewActivity_since_stop wPages 0 "repoA" (by decide)
    (by intro p hp pd hpd; simp [wPages, List.dropLast] at hp)
    (by decide)).2.1, by decide⟩

/-- **C5.** In `processPR`, a review verdict or line comment whose author
matches a bot pattern or equals the pull-request author case-insensitively
contributes nothing: processing the pull request gives the same state as
processing it with all such items removed; moreover, for every excluded
login, no entry for it is added to the activity map and no appended
`ReviewCommentDetail` carries it as reviewer.  (The filter is per pull
request: on a different pull request the same login is simply not
excluded unless it is again a bot or that PR's author.) -/
theorem processPR_excludes_bots_and_self (pr : GraphQLPRNode) (s : Option Int)
    (rep : String) (st : ActivityMap × List ReviewCommentDetail) :
    processPR pr s rep st = processPR (stripExcluded pr) s rep st ∧
      ∀ lg, excludedLogin pr lg = true →
        ((lg ∈ ((processPR pr s rep st).1.map (·.login))) ↔
          lg ∈ st.1.map (·.login)) ∧
        ∀ dtl ∈ (processPR pr s rep st).2, dtl ∉ st.2 → dtl.reviewer ≠ lg := by
  have hshape : processPR pr s rep st =
      pr.reviewThreads.foldl
        (fun st2 th => th.comments.foldl
          (processComment pr (pr.author.map jsToLower) s rep) st2)
        (pr.reviews.foldl (processReview (pr.author.map jsToLower) s rep) st.1, st.2) := by
    simp only [processPR]
  obtain ⟨tail, htail, hptail⟩ := foldl_threads_snd pr.reviewThreads pr
    (pr.author.map jsToLower) s rep
    (pr.reviews.foldl (processReview (pr.author.map jsToLower) s rep) st.1, st.2)
  refine ⟨processPR_stripExcluded pr s rep st, fun lg hex => ⟨?_, ?_⟩⟩
  · rw [hshape, foldl_threads_fst_logins]
    rw [show (pr.reviews.foldl (processReview (pr.author.map jsToLower) s rep) st.1,
        st.2).1 = pr.reviews.foldl (processReview (pr.author.map jsToLower) s rep) st.1
      from rfl]
    rw [foldl_processReview_logins]
    constructor
    · rintro ((h | ⟨r, _, har, hs2⟩) | ⟨th, _, c, _, hac, hs2⟩)
      · exact h
      · rw [excluded_not_review_survives pr s r lg har hex] at hs2
        cases hs2
      · rw [excluded_not_comment_survives pr s c lg hac hex] at hs2
        cases hs2
    · intro h
      exact Or.inl (Or.inl h)
  · intro dtl hdtl hnot
    rw [hshape] at hdtl
    rw [htail] at hdtl
    rcases List.mem_append.mp hdtl with h1 | h2
    · exact absurd h1 hnot
    · obtain ⟨th, _, c, _, lg2, hac, hs2, hrev⟩ := hptail dtl h2
      intro heq
      rw [hrev] at heq
      rw [heq] at hac
      rw [excluded_not_comment_survives pr s c lg hac hex] at hs2
      cases hs2

/-- **C5 (witness).** A renovate-authored verdict and comment on `wPR`
contribute nothing: the activity map stays empty of `renovate` and the
stripped pull request yields the same state. -/
theorem processPR_excludes_bots_and_self_witness :
    ((("renovate" : String) ∈
        ((processPR wPR none "repoA" ([], [])).1.map (·.login))) ↔
      ("renovate" : String) ∈ (([] : ActivityMap).map (·.login))) ∧
      processPR wPR none "repoA" ([], []) =
        processPR (stripExcluded wPR) none "repoA" ([], []) := by
  have h := processPR_excludes_bots_and_self wPR none "repoA" ([], [])
  exact ⟨(h.2 "renovate" (by decide)).1, h.1⟩

/-- **C9.** The rows of `aggregatePRRankings` partition the input by
`(repository, pull-request number)`: rows carry pairwise-distinct pairs,
each row's `total_comments` is the number of input comments for its pair
(positive, and with at least one witnessing input comment), each row's
`reviewer_count` is the number of distinct reviewer logins among them,
every input comment has a row for its pair, and the rank fields form the
contiguous sequence `1..K` in order of non-increasing `total_comments`. -/
theorem aggregatePRRankings_spec (details : List ReviewCommentDetail) :
    List.Pairwise
      (fun r1 r2 : PRRankingRow => (r1.repo, r1.pr_number) ≠ (r2.repo, r2.pr_number))
      (aggregatePRRankings details) ∧
      (∀ r ∈ aggregatePRRankings details,
        r.total_comments =
            (details.filter fun d => d.pr.repo == r.repo && d.pr.number == r.pr_number).length ∧
          r.reviewer_count =
            ((details.filter fun d => d.pr.repo == r.repo && d.pr.number == r.pr_number).map
              (·.reviewer)).toFinset.card ∧
          0 < r.total_comments ∧
          ∃ d ∈ details, d.pr.repo = r.repo ∧ d.pr.number = r.pr_number) ∧
      (∀ d ∈ details, ∃ r ∈ aggregatePRRankings details,
        r.repo = d.pr.repo ∧ r.pr_number = d.pr.number) ∧
      (aggregatePRRankings details).map (·.rank) =
        List.range' 1 (aggregatePRRankings details).length ∧
      List.Pairwise
        (fun r1 r2 : PRRankingRow => r2.total_comments ≤ r1.total_comments)
        (aggregatePRRankings details) := by
  have hperm : List.Perm
      ((details.foldl insertRankingDetail []).mergeSort
        fun a b => decide (b.comments ≤ a.comments))
      (details.foldl insertRankingDetail []) := List.mergeSort_perm _ _
  have hnodupm : ((details.foldl insertRankingDetail []).map
      (fun g => prKey g.repo g.number)).Nodup :=
    foldl_insertRankingDetail_nodup details [] (by simp)
  have hnodups : (((details.foldl insertRankingDetail []).mergeSort
      (fun a b => decide (b.comments ≤ a.comments))).map
        (fun g => prKey g.repo g.number)).Nodup :=
    ((hperm.map _).nodup_iff).mpr hnodupm
  have hentry : ∀ g ∈ (details.foldl insertRankingDetail []).mergeSort
      (fun a b => decide (b.comments ≤ a.comments)),
      g.comments = countKey (prKey g.repo g.number) details ∧
        g.reviewers = reviewersForKey (prKey g.repo g.number) details ∧
        ∃ d ∈ details, g.repo = d.pr.repo ∧ g.number = d.pr.number := by
    intro g hg
    have hgm : g ∈ details.foldl insertRankingDetail [] := hperm.mem_iff.mp hg
    refine ⟨?_, ?_, ?_⟩
    · rw [entry_eq_commentsForKey _ hnodupm g hgm, foldl_insertRankingDetail_comments]
      simp [commentsForKey]
    · rw [entry_eq_reviewersAccForKey _ hnodupm g hgm, foldl_insertRankingDetail_reviewers]
      simp [reviewersAccForKey]
    · rcases foldl_insertRankingDetail_provenance details [] g hgm with ⟨g0, hg0, _⟩ | h
      · simp at hg0
      · exact h
  have hkeysp : List.Pairwise
      (fun g1 g2 : PRGroupAcc => prKey g1.repo g1.number ≠ prKey g2.repo g2.number)
      ((details.foldl insertRankingDetail []).mergeSort
        fun a b => decide (b.comments ≤ a.comments)) :=
    (List.pairwise_map).mp hnodups
  have hsorted : List.Pairwise (fun g1 g2 : PRGroupAcc => g2.comments ≤ g1.comments)
      ((details.foldl insertRankingDetail []).mergeSort
        fun a b => decide (b.comments ≤ a.comments)) := by
    refine List.Pairwise.imp (fun h => by simpa using h)
      (List.sorted_mergeSort ?_ ?_ _)
    · intro a b c h1 h2
      simp only [decide_eq_true_eq] at h1 h2 ⊢
      omega
    · intro a b
      simp only [Bool.or_eq_true, decide_eq_true_eq]
      omega
  refine ⟨?_, ?_, ?_, ?_, ?_⟩
  · rw [aggregatePRRankings]
    refine withRanks_pairwise ?_ 0 _ hkeysp
    intro i j g1 g2 hS heq
    apply hS
    have h1 : g1.repo = g2.repo := congrArg Prod.fst heq
    have h2 : g1.number = g2.number := congrArg Prod.snd heq
    rw [h1, h2]
  · intro r hr
    rw [aggregatePRRankings] at hr
    obtain ⟨j, g, hg, rfl⟩ := mem_withRanks_imp 0 _ r hr
    obtain ⟨hc, hrev, d, hd, hdr, hdn⟩ := hentry g hg
    have hfields : (mkRankingRow j g).repo = g.repo ∧ (mkRankingRow j g).pr_number = g.number ∧
        (mkRankingRow j g).total_comments = g.comments ∧
        (mkRankingRow j g).reviewer_count = g.reviewers.card := ⟨rfl, rfl, rfl, rfl⟩
    obtain ⟨hf1, hf2, hf3, hf4⟩ := hfields
    rw [hf1, hf2, hf3, hf4]
    have hcount : countKey (prKey g.repo g.number) details =
        (details.filter fun d => d.pr.repo == g.repo && d.pr.number == g.number).length := by
      rw [countKey, pair_filter_eq]
    have hrevk : reviewersForKey (prKey g.repo g.number) details =
        ((details.filter fun d => d.pr.repo == g.repo && d.pr.number == g.number).map
          (·.reviewer)).toFinset := by
      rw [reviewersForKey, pair_filter_eq]
    have hdin : d ∈ details.filter fun d => d.pr.repo == g.repo && d.pr.number == g.number := by
      rw [List.mem_filter]
      refine ⟨hd, ?_⟩
      simp [hdr.symm, hdn.symm]
    refine ⟨by rw [hc, hcount], by rw [hrev, hrevk], ?_, ⟨d, hd, hdr.symm, hdn.symm⟩⟩
    rw [hc, hcount]
    exact List.length_pos.mpr (fun hnil => by rw [hnil] at hdin; cases hdin)
  · intro d hd
    have hkey : prKey d.pr.repo d.pr.number ∈
        ((details.foldl insertRankingDetail []).map (fun g => prKey g.repo g.number)) := by
      rw [foldl_insertRankingDetail_keys]
      exact Or.inr ⟨d, hd, rfl⟩
    rw [List.mem_map] at hkey
    obtain ⟨g, hgm, hkeq⟩ := hkey
    have hgs : g ∈ (details.foldl insertRankingDetail []).mergeSort
        (fun a b => decide (b.comments ≤ a.comments)) := hperm.mem_iff.mpr hgm
    obtain ⟨j, hj⟩ := mem_withRanks_of_mem 0 _ g hgs
    obtain ⟨hrepo, hnum⟩ := prKey_injective hkeq
    refine ⟨mkRankingRow j g, ?_, hrepo, hnum⟩
    rw [aggregatePRRankings]
    exact hj
  · rw [aggregatePRRankings, withRanks_map_rank, withRanks_length]
  · rw [aggregatePRRankings]
    refine withRanks_pairwise ?_ 0 _ hsorted
    intro i j g1 g2 hS
    exact hS

/-- **C9 (witness).** The ranking theorem instantiated at the singleton
detail list `[wDetail]`: there is a row for `wDetail`'s pull request. -/
theorem aggregatePRRankings_spec_witness :
    ∃ r ∈ aggregatePRRankings [wDetail], r.repo = "repoA" ∧ r.pr_number = 7 := by
  have h := (aggregatePRRankings_spec [wDetail]).2.2.1 wDetail (by simp)
  simpa using h

/-- **C10.** When `fetchOrgRepos` is given a present-but-empty explicit
repository list, the explicit-list passthrough is not taken: the function
paginates the organization listing and returns the accumulated names
(shown for well-linked page sequences); the explicit list is returned
verbatim exactly when it is non-empty. -/
theorem fetchOrgRepos_empty_filter_paginates :
    (∀ pages : List RepoPage, fetchOrgRepos pages (some []) = orgRepoWalk pages []) ∧
      (∀ (pages : List RepoPage) (l : List String), l ≠ [] →
        fetchOrgRepos pages (some l) = l) ∧
      (∀ pages : List RepoPage, (∀ p ∈ pages.dropLast, p.hasNextPage = true) →
        orgRepoWalk pages [] = (pages.map (·.names)).flatten) := by
  refine ⟨fun pages => rfl, fun pages l hl => ?_, fun pages hp => ?_⟩
  · rw [fetchOrgRepos]
    rw [if_pos (by simpa using List.length_pos.mpr hl)]
  · have main : ∀ (ps : List RepoPage) (acc : List String),
        (∀ p ∈ ps.dropLast, p.hasNextPage = true) →
        orgRepoWalk ps acc = acc ++ (ps.map (·.names)).flatten := by
      intro ps
      induction ps with
      | nil => intro acc _; simp [orgRepoWalk]
      | cons page rest ih =>
        intro acc hcond
        cases hr : rest with
        | nil =>
          subst hr
          rw [orgRepoWalk]
          by_cases hn : page.hasNextPage
          · rw [if_pos hn, orgRepoWalk]
            simp
          · rw [if_neg hn]
            simp
        | cons r2 rs =>
          have hpage : page.hasNextPage = true := by
            apply hcond
            rw [hr]
            simp [List.dropLast]
          rw [orgRepoWalk, if_pos hpage, ← hr, ih]
          · simp
          · intro p hp2
            apply hcond
            rw [hr] at hp2 ⊢
            simp [List.dropLast] at hp2 ⊢
            tauto
    exact main pages [] hp

/-- **C10 (witness).** A non-empty explicit list passes through verbatim,
and with an empty explicit list the two-page organization listing is
accumulated in order. -/
theorem fetchOrgRepos_empty_filter_paginates_witness :
    fetchOrgRepos [] (some ["r0"]) = ["r0"] ∧
      orgRepoWalk [⟨["r1"], true⟩, ⟨["r2"], false⟩] [] = ["r1", "r2"] := by
  constructor
  · exact fetchOrgRepos_empty_filter_paginates.2.1 [] ["r0"] (by simp)
  · have h := fetchOrgRepos_empty_filter_paginates.2.2
      [⟨["r1"], true⟩, ⟨["r2"], false⟩] (by simp [List.dropLast])
    rw [h]
    rfl

/-- **C3.** `aggregateActivity` returns a list sorted descending by
`totalActivity`; its logins are exactly the union of the input maps'
logins; each output entry's five numeric counters equal the sums of that
counter over all input entries for that login, and its `reposActiveIn` is
the union of that login's input repository sets; consequently the sum of
any counter over the output equals its sum over all inputs. -/
theorem aggregateActivity_spec (ms : List (List UserActivity)) :
    List.Pairwise (fun a b : UserActivity => b.totalActivity ≤ a.totalActivity)
      (aggregateActivity ms) ∧
      (∀ lg : String,
        (∃ e ∈ aggregateActivity ms, e.login = lg) ↔ ∃ m ∈ ms, ∃ e ∈ m, e.login = lg) ∧
      (∀ e ∈ aggregateActivity ms,
        (∀ p : CounterField, p.get e = sumForLogin p.get e.login ms.flatten) ∧
          e.reposActiveIn = reposForLogin e.login ms.flatten) ∧
      (∀ p : CounterField,
        ((aggregateActivity ms).map p.get).sum = (ms.flatten.map p.get).sum) := by
  have hperm : List.Perm (aggregateActivity ms) (ms.flatten.foldl insertActivity []) :=
    List.mergeSort_perm _ _
  have hnodup : ((ms.flatten.foldl insertActivity []).map (·.login)).Nodup :=
    foldl_insertActivity_nodup ms.flatten [] (by simp)
  have htrans : ∀ a b c : UserActivity,
      decide (b.totalActivity ≤ a.totalActivity) = true →
      decide (c.totalActivity ≤ b.totalActivity) = true →
      decide (c.totalActivity ≤ a.totalActivity) = true := by
    intro a b c h1 h2
    simp only [decide_eq_true_eq] at h1 h2 ⊢
    omega
  have htotal : ∀ a b : UserActivity,
      (decide (b.totalActivity ≤ a.totalActivity) ||
        decide (a.totalActivity ≤ b.totalActivity)) = true := by
    intro a b
    simp only [Bool.or_eq_true, decide_eq_true_eq]
    omega
  refine ⟨?_, ?_, ?_, ?_⟩
  · rw [aggregateActivity]
    exact List.Pairwise.imp (fun h => by simpa using h)
      (List.sorted_mergeSort htrans htotal _)
  · intro lg
    constructor
    · rintro ⟨e, hemem, rfl⟩
      have hem : e ∈ ms.flatten.foldl insertActivity [] := hperm.mem_iff.mp hemem
      have hl : e.login ∈ ((ms.flatten.foldl insertActivity []).map (·.login)) :=
        List.mem_map_of_mem _ hem
      rw [foldl_insertActivity_logins] at hl
      rcases hl with h | ⟨x, hx, hlg⟩
      · simp at h
      · rw [List.mem_flatten] at hx
        obtain ⟨m, hm, hxm⟩ := hx
        exact ⟨m, hm, x, hxm, hlg⟩
    · rintro ⟨m, hm, e, hem, rfl⟩
      have hx : e.login ∈ ((ms.flatten.foldl insertActivity []).map (·.login)) := by
        rw [foldl_insertActivity_logins]
        exact Or.inr ⟨e, List.mem_flatten.mpr ⟨m, hm, hem⟩, rfl⟩
      rw [List.mem_map] at hx
      obtain ⟨e2, he2, hl2⟩ := hx
      exact ⟨e2, hperm.mem_iff.mpr he2, hl2⟩
  · intro e he
    have hem : e ∈ ms.flatten.foldl insertActivity [] := hperm.mem_iff.mp he
    refine ⟨fun p => ?_, ?_⟩
    · rw [entry_eq_sumForLogin p.get _ hnodup e hem,
        foldl_insertActivity_sumForLogin p.get (fun x y => addActivity_get p x y)]
      simp [sumForLogin]
    · rw [entry_eq_reposForLogin _ hnodup e hem, foldl_insertActivity_reposForLogin]
      simp [reposForLogin]
  · intro p
    rw [(hperm.map p.get).sum_eq,
      sum_map_foldl_insertActivity p.get (fun x y => addActivity_get p x y)]
    simp

/-- **C3 (witness).** The aggregation theorem instantiated at the
one-map, one-entry input `[[wAlice]]`: the output entry's counters and
repository set are the per-login sums and unions over the flattened
input. -/
theorem aggregateActivity_spec_witness :
    CounterField.totalActivity.get wAlice =
        sumForLogin CounterField.totalActivity.get wAlice.login [[wAlice]].flatten ∧
      wAlice.reposActiveIn = reposForLogin wAlice.login [[wAlice]].flatten := by
  have hmem : wAlice ∈ aggregateActivity [[wAlice]] := by
    rw [aggregateActivity]
    simp [insertActivity, cloneActivity_eq]
  have h := (aggregateActivity_spec [[wAlice]]).2.2.1 wAlice hmem
  exact ⟨h.1 CounterField.totalActivity, h.2⟩

/-- **C8 (counterexample).** The claim says `escapeCSV` returns a field
unchanged when it contains no comma, double-quote or newline; but the
source also quotes fields containing a carriage return, so the
single-character field `"\r"` is changed although it contains none of the
three characters the claim lists. -/
theorem escapeCSV_changes_carriage_return :
    escapeCSV ⟨['\r']⟩ ≠ ⟨['\r']⟩ ∧
      (⟨['\r']⟩ : String).data.any (fun c => c == ',' || c == '"' || c == '\n') = false := by
  constructor
  · decide
  · decide

/-- **C8 (amended).** `escapeCSV` quotes the field, doubling each internal
double-quote, exactly when the value contains a comma, double-quote,
newline, or carriage return, and otherwise returns it unchanged; for every
input string, re-parsing the escaped output with the standard RFC-4180
unquoting rule recovers the original string exactly. -/
theorem escapeCSV_roundtrip (v : String) :
    unquoteCSV (escapeCSV v) = v ∧
      (escapeCSV v = v ↔ v.data.any csvNeedsQuote = false) ∧
      (escapeCSV v).data =
        (if v.data.any csvNeedsQuote then '"' :: (replaceQuotes v.data ++ ['"']) else v.data) := by
  obtain ⟨l⟩ := v
  refine ⟨unquoteCSV_escapeCSV _, ⟨fun he => ?_, fun hno => ?_⟩, ?_⟩
  · by_contra hq
    rw [Bool.not_eq_false] at hq
    rw [escapeCSV_eq, if_pos hq] at he
    have hlen := congrArg (fun s => s.data.length) he
    have hrl := replaceQuotes_length l
    simp only [List.length_cons, List.length_append, List.length_singleton] at hlen
    omega
  · rw [escapeCSV_eq, if_neg (by simp [hno])]
  · rw [escapeCSV_eq]
    by_cases h : l.any csvNeedsQuote = true
    · rw [if_pos h]
      simp [h]
    · rw [if_neg h]
      simp only [Bool.not_eq_true] at h
      simp [h]

/-- **C7.** Counter invariants of the activity pipeline. (1) Every entry
of a map produced by `fetchReviewActivity` satisfies
`totalActivity = reviewComments` and
`reviewsGiven = approvals + changesRequested + (number of surviving
COMMENTED-state verdicts counted for that login over the processed pull
requests)`, hence `approvals + changesRequested ≤ reviewsGiven`.
(2) The invariant transfers through `aggregateActivity`: if every input
entry balances its `reviewsGiven` against a commented-verdict count
`cnt`, every output entry balances against the per-login sum of `cnt`.
(3), (4) No counter is ever decremented: `processPR` and
`aggregateActivity` map each existing entry to an entry with the same
login and counters at least as large. -/
theorem activity_counter_invariants :
    (∀ (pages : List PRPage) (s : Option Int) (mx : Option Nat) (rep : String),
      ∀ e ∈ (fetchReviewActivity pages s mx rep).activity,
        EntryBasic e ∧
          e.reviewsGiven = e.approvals + e.changesRequested +
            ((walkProcessed s mx pages 0).map fun pr =>
              commentedInPR (effectiveSince s mx) e.login pr).sum) ∧
      (∀ (ms : List (List UserActivity)) (cnt : UserActivity → Nat),
        (∀ l ∈ ms, ∀ e ∈ l, e.totalActivity = e.reviewComments ∧
            e.reviewsGiven = e.approvals + e.changesRequested + cnt e) →
        ∀ e ∈ aggregateActivity ms,
          EntryBasic e ∧
            e.reviewsGiven = e.approvals + e.changesRequested +
              sumForLogin cnt e.login ms.flatten) ∧
      (∀ (pr : GraphQLPRNode) (s : Option Int) (rep : String)
          (st : ActivityMap × List ReviewCommentDetail),
        MapLe st.1 (processPR pr s rep st).1) ∧
      (∀ ms : List (List UserActivity), MapLe ms.flatten (aggregateActivity ms)) := by
  refine ⟨?_, ?_, fun pr s rep st => processPR_mono pr s rep st, aggregateActivity_mono⟩
  · intro pages s mx rep e he
    have hcomp := (fetchWalk_components s mx rep pages initFetchState).1
    have hact : (fetchReviewActivity pages s mx rep).activity =
        ((walkProcessed s mx pages 0).foldl
          (fun q pr => processPR pr (effectiveSince s mx) rep q)
          (([] : ActivityMap), ([] : List ReviewCommentDetail))).1 := by
      rw [fetchReviewActivity]
      have h := congrArg Prod.fst hcomp
      simpa [initFetchState] using h
    rw [hact] at he
    have hnodup : (((walkProcessed s mx pages 0).foldl
        (fun q pr => processPR pr (effectiveSince s mx) rep q)
        (([] : ActivityMap), ([] : List ReviewCommentDetail))).1.map (·.login)).Nodup :=
      nodup_logins_foldl_processPR _ _ rep _ (by simp)
    have hp : ∀ p : CounterField, p.get e =
        ((walkProcessed s mx pages 0).map fun pr =>
          reviewContrib p pr (effectiveSince s mx) e.login +
            commentDelta p * commentCountInPR (effectiveSince s mx) e.login pr).sum := by
      intro p
      rw [entry_eq_sumForLogin p.get _ hnodup e he, foldl_processPR_sumForLogin]
      simp [sumForLogin]
    have htot : e.totalActivity = ((walkProcessed s mx pages 0).map fun pr =>
        commentCountInPR (effectiveSince s mx) e.login pr).sum := by
      have h1 : e.totalActivity = _ := hp CounterField.totalActivity
      rw [h1]
      exact sum_map_congr _ _ _ (fun pr _ => by
        rw [reviewContrib_totalActivity, commentDelta_totalActivity]
        omega)
    have hrc : e.reviewComments = ((walkProcessed s mx pages 0).map fun pr =>
        commentCountInPR (effectiveSince s mx) e.login pr).sum := by
      have h1 : e.reviewComments = _ := hp CounterField.reviewComments
      rw [h1]
      exact sum_map_congr _ _ _ (fun pr _ => by
        rw [reviewContrib_reviewComments, commentDelta_reviewComments]
        omega)
    have hap : e.approvals = ((walkProcessed s mx pages 0).map fun pr =>
        reviewContrib CounterField.approvals pr (effectiveSince s mx) e.login).sum := by
      have h1 : e.approvals = _ := hp CounterField.approvals
      rw [h1]
      exact sum_map_congr _ _ _ (fun pr _ => by
        rw [commentDelta_approvals]
        omega)
    have hcr : e.changesRequested = ((walkProcessed s mx pages 0).map fun pr =>
        reviewContrib CounterField.changesRequested pr
          (effectiveSince s mx) e.login).sum := by
      have h1 : e.changesRequested = _ := hp CounterField.changesRequested
      rw [h1]
      exact sum_map_congr _ _ _ (fun pr _ => by
        rw [commentDelta_changesRequested]
        omega)
    have hrg : e.reviewsGiven = ((walkProcessed s mx pages 0).map fun pr =>
        reviewContrib CounterField.approvals pr (effectiveSince s mx) e.login +
          reviewContrib CounterField.changesRequested pr (effectiveSince s mx) e.login +
          commentedInPR (effectiveSince s mx) e.login pr).sum := by
      have h1 : e.reviewsGiven = _ := hp CounterField.reviewsGiven
      rw [h1]
      exact sum_map_congr _ _ _ (fun pr _ => by
        rw [reviewContrib_split, commentDelta_reviewsGiven]
        omega)
    have hsplit : ((walkProcessed s mx pages 0).map fun pr =>
        reviewContrib CounterField.approvals pr (effectiveSince s mx) e.login +
          reviewContrib CounterField.changesRequested pr (effectiveSince s mx) e.login +
          commentedInPR (effectiveSince s mx) e.login pr).sum =
        ((walkProcessed s mx pages 0).map fun pr =>
          reviewContrib CounterField.approvals pr (effectiveSince s mx) e.login +
            reviewContrib CounterField.changesRequested pr
              (effectiveSince s mx) e.login).sum +
          ((walkProcessed s mx pages 0).map fun pr =>
            commentedInPR (effectiveSince s mx) e.login pr).sum :=
      sum_map_add (fun pr : GraphQLPRNode =>
          reviewContrib CounterField.approvals pr (effectiveSince s mx) e.login +
            reviewContrib CounterField.changesRequested pr (effectiveSince s mx) e.login)
        (fun pr => commentedInPR (effectiveSince s mx) e.login pr) _
    have hsplit2 : ((walkProcessed s mx pages 0).map fun pr =>
        reviewContrib CounterField.approvals pr (effectiveSince s mx) e.login +
          reviewContrib CounterField.changesRequested pr
            (effectiveSince s mx) e.login).sum =
        ((walkProcessed s mx pages 0).map fun pr =>
          reviewContrib CounterField.approvals pr (effectiveSince s mx) e.login).sum +
          ((walkProcessed s mx pages 0).map fun pr =>
            reviewContrib CounterField.changesRequested pr
              (effectiveSince s mx) e.login).sum :=
      sum_map_add (fun pr : GraphQLPRNode =>
          reviewContrib CounterField.approvals pr (effectiveSince s mx) e.login)
        (fun pr => reviewContrib CounterField.changesRequested pr
          (effectiveSince s mx) e.login) _
    refine ⟨⟨by omega, by omega⟩, by omega⟩
  · intro ms cnt hin e he
    have hperm : List.Perm (aggregateActivity ms) (ms.flatten.foldl insertActivity []) :=
      List.mergeSort_perm _ _
    have hem : e ∈ ms.flatten.foldl insertActivity [] := hperm.mem_iff.mp he
    have hnodup : ((ms.flatten.foldl insertActivity []).map (·.login)).Nodup :=
      foldl_insertActivity_nodup ms.flatten [] (by simp)
    have hflat : ∀ x ∈ ms.flatten, x.totalActivity = x.reviewComments ∧
        x.reviewsGiven = x.approvals + x.changesRequested + cnt x := by
      intro x hx
      rw [List.mem_flatten] at hx
      obtain ⟨l, hl, hxl⟩ := hx
      exact hin l hl x hxl
    have hp : ∀ p : CounterField, p.get e = sumForLogin p.get e.login ms.flatten := by
      intro p
      rw [entry_eq_sumForLogin p.get _ hnodup e hem,
        foldl_insertActivity_sumForLogin p.get (fun x y => addActivity_get p x y)]
      simp [sumForLogin]
    have h1 : e.totalActivity =
        sumForLogin (fun a => a.totalActivity) e.login ms.flatten :=
      hp CounterField.totalActivity
    have h2 : sumForLogin (fun a => a.totalActivity) e.login ms.flatten =
        sumForLogin (fun a => a.reviewComments) e.login ms.flatten :=
      sumForLogin_congr (fun a => a.totalActivity) (fun a => a.reviewComments) _ _
        (fun x hx => (hflat x hx).1)
    have h3 : e.reviewComments =
        sumForLogin (fun a => a.reviewComments) e.login ms.flatten :=
      hp CounterField.reviewComments
    have h4 : e.reviewsGiven =
        sumForLogin (fun a => a.reviewsGiven) e.login ms.flatten :=
      hp CounterField.reviewsGiven
    have h5 : sumForLogin (fun a => a.reviewsGiven) e.login ms.flatten =
        sumForLogin (fun a => a.approvals + a.changesRequested + cnt a)
          e.login ms.flatten :=
      sumForLogin_congr (fun a => a.reviewsGiven)
        (fun a => a.approvals + a.changesRequested + cnt a) _ _
        (fun x hx => (hflat x hx).2)
    have h6 : sumForLogin (fun a => a.approvals + a.changesRequested + cnt a)
        e.login ms.flatten =
        sumForLogin (fun a => a.approvals + a.changesRequested) e.login ms.flatten +
          sumForLogin cnt e.login ms.flatten :=
      sumForLogin_add (fun a => a.approvals + a.changesRequested) cnt _ _
    have h7 : sumForLogin (fun a => a.approvals + a.changesRequested)
        e.login ms.flatten =
        sumForLogin (fun a => a.approvals) e.login ms.flatten +
          sumForLogin (fun a => a.changesRequested) e.login ms.flatten :=
      sumForLogin_add (fun a => a.approvals) (fun a => a.changesRequested) _ _
    have h8 : e.approvals = sumForLogin (fun a => a.approvals) e.login ms.flatten :=
      hp CounterField.approvals
    have h9 : e.changesRequested =
        sumForLogin (fun a => a.changesRequested) e.login ms.flatten :=
      hp CounterField.changesRequested
    exact ⟨⟨by omega, by omega⟩, by omega⟩

/-- **C7 (witness).** The aggregation half of the invariant theorem
instantiated at the one-map, one-entry input `[[wAlice]]` with the
commented-verdict count read off each entry: `wAlice` balances
`totalActivity` against `reviewComments` and `reviewsGiven` against
`approvals + changesRequested` plus the per-login commented count. -/
theorem activity_counter_invariants_witness :
    EntryBasic wAlice ∧
      wAlice.reviewsGiven = wAlice.approvals + wAlice.changesRequested +
        sumForLogin (fun a => a.reviewsGiven - a.approvals - a.changesRequested)
          wAlice.login [[wAlice]].flatten := by
  have hmem : wAlice ∈ aggregateActivity [[wAlice]] := by
    rw [aggregateActivity]
    simp [insertActivity, cloneActivity_eq]
  exact activity_counter_invariants.2.1 [[wAlice]]
    (fun a => a.reviewsGiven - a.approvals - a.changesRequested)
    (by
      intro l hl e he
      rw [List.mem_singleton] at hl
      subst hl
      rw [List.mem_singleton] at he
      subst he
      exact ⟨rfl, by decide⟩)
    wAlice hmem

end ChunkSpec
